import Mathlib

/-!
# Priority search over a sorted point sequence (`HW05/hw5_3_go/main.go`)

A shallow embedding of the search engine of `main.go`: the `Entry` ordering
`IsBetterThan`, the `QueueSlice` methods, the `container/heap` routines the engine
calls (`heap.Push`, `heap.Pop`, `heap.Fix` with their `up` and `down` loops), and
`PrioritySearch.clearState`, `pushStart`, `reconstructPath` and `Do`.

Modelling conventions.

* Go `int` is `Int`; no value in a run comes near the machine range.
* `float64` costs are exact rationals (`ℚ`).  The result `Entry{TotalCost: +Inf, QueueIndex: -1}, nil`
  of the "no path" return is the constructor `DoResult.noPath`.
* A `*Entry` is named by the `Node` it was created for: `Do` allocates exactly one `Entry` per key of
  the `entries` map and never removes a key, so the map `entries : Node → Option Entry` is at the same
  time the store the pointers of the queue refer to.  The queue is the list of those pointers.
* A run-time panic (index out of range, nil dereference) is `none`.  Loops recurse on a fuel
  argument; running out of fuel is `none` in `doLoop` and `reconstructLoop`, and the theorems
  `Do_total`, `up_fuel_add` and `down_fuel_add` show that the fuel passed is never exhausted.
* `Less` and `Swap` at a position outside the queue, where the Go slice access panics, are `false`
  and the unchanged state.  `heap.Fix` does not panic at the positions of the queue and at `-1`
  (where its two loops stop at once); statements about `heapFix` are made for these positions.
-/

namespace HW5

/-! ## The embedding of `main.go` -/

/-- `type Point struct{ X, Y float64 }`. -/
structure Point where
  X : ℚ
  Y : ℚ
deriving DecidableEq

/-- `type Node struct{ Point, NodesVisited int }`. -/
structure Node where
  Point : Int
  NodesVisited : Int
deriving DecidableEq

/-- `type Entry struct { Node; NodesToVisit int; TotalCost float64; QueueIndex int }`. -/
structure Entry extends Node where
  NodesToVisit : Int
  TotalCost : ℚ
  QueueIndex : Int
deriving DecidableEq

/-- `func (a *Entry) IsBetterThan(b *Entry) bool`, line by line. -/
def Entry.IsBetterThan (a b : Entry) : Bool :=
  if a.NodesToVisit = b.NodesVisited ∧ a.NodesVisited = b.NodesVisited then
    decide (a.TotalCost < b.TotalCost)
  else if a.NodesToVisit = b.NodesToVisit then
    decide (a.NodesVisited > b.NodesVisited)
  else
    decide (a.NodesToVisit > b.NodesToVisit)

/-- `type PrioritySearch struct`: configuration (`Pts`, `Dist`, `MaxCost`, `MaxLength`) and the
run state (`queue`, `entries`, `previous`). -/
structure PrioritySearch where
  Pts : List Point
  Dist : List (List ℚ)
  MaxCost : ℚ
  MaxLength : Int
  queue : List Node
  entries : Node → Option Entry
  previous : Node → Option Node

/-- The value of `len(s.Pts)`. -/
def PrioritySearch.N (s : PrioritySearch) : Int := (s.Pts.length : Int)

/-- Slice indexing `xs[i]` with a Go `int` index; `none` is the out-of-range panic. -/
def index {α : Type} (xs : List α) (i : Int) : Option α :=
  if i < 0 then none else xs[i.toNat]?

/-- The table access `s.Dist[i][j]`. -/
def distAt (Dist : List (List ℚ)) (i j : Int) : Option ℚ :=
  (index Dist i).bind (fun row => index row j)

/-- A map assignment `m[k] = v`. -/
def assign {β : Type} (m : Node → Option β) (k : Node) (v : β) : Node → Option β :=
  fun x => if x = k then some v else m x

/-- The assignment `e.QueueIndex = i` through the pointer `k`. -/
def setQueueIndex (m : Node → Option Entry) (k : Node) (i : Int) : Node → Option Entry :=
  fun x => if x = k then (m x).map (fun e => { e with QueueIndex := i }) else m x

/-- The assignment `entry.TotalCost = c` through the pointer `k`. -/
def setTotalCost (m : Node → Option Entry) (k : Node) (c : ℚ) : Node → Option Entry :=
  fun x => if x = k then (m x).map (fun e => { e with TotalCost := c }) else m x

/-- The statement `s.entries[e.Node] = e`. -/
def setEntry (s : PrioritySearch) (e : Entry) : PrioritySearch :=
  { s with entries := assign s.entries e.toNode e }

/-- The statement `s.previous[n] = m`. -/
def setPrevious (s : PrioritySearch) (n m : Node) : PrioritySearch :=
  { s with previous := assign s.previous n m }

/-- The statement `entry.TotalCost = c` for the entry behind the pointer `n`. -/
def lowerCost (s : PrioritySearch) (n : Node) (c : ℚ) : PrioritySearch :=
  { s with entries := setTotalCost s.entries n c }

/-- The entry `*s[i]` behind position `i` of the queue. -/
def entryAt (s : PrioritySearch) (i : Int) : Option Entry :=
  (index s.queue i).bind s.entries

/-- `func (s QueueSlice) Len() int`. -/
def Len (s : PrioritySearch) : Int := (s.queue.length : Int)

/-- `func (s QueueSlice) Less(i, j int) bool { return s[i].IsBetterThan(s[j]) }`. -/
def Less (s : PrioritySearch) (i j : Int) : Bool :=
  match entryAt s i, entryAt s j with
  | some a, some b => a.IsBetterThan b
  | _, _ => false

/-- `func (s QueueSlice) Swap(i, j int)`: exchange the two pointers, then store the new positions
in the entries now at `i` and at `j`. -/
def Swap (s : PrioritySearch) (i j : Int) : PrioritySearch :=
  match index s.queue i, index s.queue j with
  | some a, some b =>
    { s with
      queue := (s.queue.set i.toNat b).set j.toNat a
      entries := setQueueIndex (setQueueIndex s.entries b i) a j }
  | _, _ => s

/-- `func (s *QueueSlice) Push(x any)`: `e.QueueIndex = s.Len(); *s = append(*s, e)`. -/
def Push (s : PrioritySearch) (e : Node) : PrioritySearch :=
  { s with
    queue := s.queue ++ [e]
    entries := setQueueIndex s.entries e (Len s) }

/-- `func (s *QueueSlice) Pop() any`: remove the last pointer, set its `QueueIndex` to `-1`. -/
def Pop (s : PrioritySearch) : Option (Node × PrioritySearch) :=
  match index s.queue (Len s - 1) with
  | none => none
  | some e =>
    some (e, { s with
      queue := s.queue.dropLast
      entries := setQueueIndex s.entries e (-1) })

/-- The loop of `container/heap.up(h, j)`.  Go's `(j - 1) / 2` truncates toward zero. -/
def up : Nat → PrioritySearch → Int → PrioritySearch
  | 0, s, _ => s
  | fuel + 1, s, j =>
    let i := Int.tdiv (j - 1) 2
    if i = j ∨ Less s j i = false then s
    else up fuel (Swap s i j) i

/-- The loop of `container/heap.down(h, i0, n)`, started at `i`; the Boolean is `i > i0`. -/
def down : Nat → PrioritySearch → Int → Int → Int → PrioritySearch × Bool
  | 0, s, i0, i, _ => (s, decide (i > i0))
  | fuel + 1, s, i0, i, n =>
    let j1 := 2 * i + 1
    if j1 ≥ n ∨ j1 < 0 then (s, decide (i > i0))
    else
      let j2 := j1 + 1
      let j := if j2 < n ∧ Less s j2 j1 = true then j2 else j1
      if Less s j i = false then (s, decide (i > i0))
      else down fuel (Swap s i j) i0 j n

/-- Iterations granted to `up` and `down`: one more than the queue length. -/
def heapFuel (s : PrioritySearch) : Nat := s.queue.length + 1

/-- `heap.Push(h, x)`: `h.Push(x); up(h, h.Len()-1)`. -/
def heapPush (s : PrioritySearch) (e : Node) : PrioritySearch :=
  let s1 := Push s e
  up (heapFuel s1) s1 (Len s1 - 1)

/-- `heap.Pop(h)`: `n := h.Len() - 1; h.Swap(0, n); down(h, 0, n); return h.Pop()`. -/
def heapPop (s : PrioritySearch) : Option (Node × PrioritySearch) :=
  let n := Len s - 1
  let s1 := Swap s 0 n
  Pop (down (heapFuel s1) s1 0 0 n).1

/-- `heap.Fix(h, i)`: `if !down(h, i, h.Len()) { up(h, i) }`. -/
def heapFix (s : PrioritySearch) (i : Int) : PrioritySearch :=
  let r := down (heapFuel s) s i i (Len s)
  if r.2 = false then up (heapFuel r.1) r.1 i else r.1

/-- `func (s *PrioritySearch) clearState()`. -/
def clearState (s : PrioritySearch) : PrioritySearch :=
  { s with queue := [], entries := fun _ => none, previous := fun _ => none }

/-- The key of the start entry, `Node{0, 1}`. -/
def startNode : Node := ⟨0, 1⟩

/-- The entry `start` that `pushStart` allocates:
`&Entry{Node: Node{0, 1}, NodesToVisit: len(s.Pts) - 1, TotalCost: 0.0}`. -/
def startEntry (s : PrioritySearch) : Entry :=
  { toNode := startNode, NodesToVisit := s.N - 1, TotalCost := 0, QueueIndex := 0 }

/-- `func (s *PrioritySearch) pushStart()`. -/
def pushStart (s : PrioritySearch) : PrioritySearch :=
  let start := startEntry s
  heapPush (setEntry s start) start.toNode

/-- The loop of `reconstructPath`: while `end.NodesVisited > 0`, append
`s.Pts[end.NodesVisited-1]` and step to `s.previous[end]` (the zero `Node` for a missing key). -/
def reconstructLoop (s : PrioritySearch) : Nat → Node → Option (List Point)
  | 0, e => if e.NodesVisited > 0 then none else some []
  | fuel + 1, e =>
    if e.NodesVisited > 0 then
      match index s.Pts (e.NodesVisited - 1) with
      | none => none
      | some pt =>
        (reconstructLoop s fuel ((s.previous e).getD ⟨0, 0⟩)).map (fun p => pt :: p)
    else some []

/-- `func (s *PrioritySearch) reconstructPath(end Node) (p []Point)`. -/
def reconstructPath (s : PrioritySearch) (e : Node) : Option (List Point) :=
  reconstructLoop s e.NodesVisited.toNat e

/-- The values taken by `nextIdx` in `for nextIdx := from + 1; nextIdx < n; nextIdx++`. -/
def nextIndices (start n : Int) : List Int :=
  (List.range (n - (start + 1)).toNat).map (fun (k : Nat) => start + 1 + (k : Int))

/-- One pass through the body of the inner `for nextIdx` loop of `Do`; `p` is the pointer
`popped`, read through at every use as the Go code does. -/
def expandOne (s : PrioritySearch) (p : Node) (nextIdx : Int) : Option PrioritySearch :=
  match s.entries p with
  | none => none
  | some popped =>
    let nextNode : Node := ⟨nextIdx, popped.NodesVisited + 1⟩
    if s.MaxLength ≥ 0 ∧ nextNode.NodesVisited > s.MaxLength then some s
    else
      match distAt s.Dist popped.Point nextIdx with
      | none => none
      | some d =>
        let altCost := popped.TotalCost + d
        if altCost > s.MaxCost then some s
        else
          match s.entries nextNode with
          | none =>
            let entry : Entry :=
              { toNode := nextNode, NodesToVisit := s.N - nextIdx - 1,
                TotalCost := altCost, QueueIndex := 0 }
            some (heapPush (setPrevious (setEntry s entry) nextNode popped.toNode) nextNode)
          | some entry =>
            if altCost < entry.TotalCost then
              some (heapFix (setPrevious (lowerCost s nextNode altCost) nextNode popped.toNode)
                entry.QueueIndex)
            else some s

/-- The inner `for nextIdx` loop of `Do` over the remaining values of `nextIdx`. -/
def expand (s : PrioritySearch) (p : Node) : List Int → Option PrioritySearch
  | [] => some s
  | nextIdx :: rest =>
    match expandOne s p nextIdx with
    | none => none
    | some s1 => expand s1 p rest

/-- What `Do` returns: `found e route` is `(*popped, s.reconstructPath(popped.Node))`, and `noPath`
is `(Entry{TotalCost: math.Inf(1), QueueIndex: -1}, nil)`. -/
inductive DoResult where
  | found (e : Entry) (route : List Point)
  | noPath
deriving DecidableEq

/-- The main loop of `Do`, `for s.queue.Len() > 0 { ... }`, with an iteration budget. -/
def doLoop : Nat → PrioritySearch → Option (DoResult × PrioritySearch)
  | 0, _ => none
  | fuel + 1, s =>
    if Len s > 0 then
      match heapPop s with
      | none => none
      | some (p, s1) =>
        match s1.entries p with
        | none => none
        | some popped =>
          if popped.Point = s1.N - 1 ∧
              (s1.MaxLength < 0 ∨ popped.NodesVisited = s1.MaxLength) then
            match reconstructPath s1 popped.toNode with
            | none => none
            | some route => some (DoResult.found popped route, s1)
          else
            match expand s1 p (nextIndices popped.Point s1.N) with
            | none => none
            | some s2 => doLoop fuel s2
    else some (DoResult.noPath, s)

/-- Iterations granted to the main loop: more than the number of states `(Point, NodesVisited)`. -/
def doFuel (s : PrioritySearch) : Nat := (s.Pts.length + 1) * (s.Pts.length + 2) + 1

/-- `func (s *PrioritySearch) Do() (Entry, []Point)`, together with the state it leaves behind. -/
def Do (s : PrioritySearch) : Option (DoResult × PrioritySearch) :=
  doLoop (doFuel s) (pushStart (clearState s))

/-- The result of `Do` alone. -/
def DoOutput (s : PrioritySearch) : Option DoResult := (Do s).map Prod.fst

/-- A `PrioritySearch` value as `main` builds it: configuration only, empty run state. -/
def mkSearch (Pts : List Point) (Dist : List (List ℚ)) (MaxCost : ℚ) (MaxLength : Int) :
    PrioritySearch :=
  { Pts := Pts, Dist := Dist, MaxCost := MaxCost, MaxLength := MaxLength,
    queue := [], entries := fun _ => none, previous := fun _ => none }

/-! ## A record of the run

The same control flow as `doLoop` and `expand`, built from the same `heapPop` and `expandOne`,
keeping the states the run goes through instead of its result. -/

/-- One recorded moment of a run: a `heap.Pop` of the main loop with the state before, the pointer
popped and the state after; or a pass of the inner loop from the pointer `p` to the index
`nextIdx` with the states before and after. -/
inductive Step where
  | pop (before : PrioritySearch) (p : Node) (after : PrioritySearch)
  | pass (before : PrioritySearch) (p : Node) (nextIdx : Int) (after : PrioritySearch)

/-- The passes of the inner loop, in order. -/
def expandTrace (s : PrioritySearch) (p : Node) : List Int → List Step
  | [] => []
  | nextIdx :: rest =>
    match expandOne s p nextIdx with
    | none => []
    | some s1 => Step.pass s p nextIdx s1 :: expandTrace s1 p rest

/-- The pops and passes of the main loop, in order. -/
def doTrace : Nat → PrioritySearch → List Step
  | 0, _ => []
  | fuel + 1, s =>
    if Len s > 0 then
      match heapPop s with
      | none => []
      | some (p, s1) =>
        Step.pop s p s1 ::
          (match s1.entries p with
          | none => []
          | some popped =>
            if popped.Point = s1.N - 1 ∧
                (s1.MaxLength < 0 ∨ popped.NodesVisited = s1.MaxLength) then []
            else
              expandTrace s1 p (nextIndices popped.Point s1.N) ++
                (match expand s1 p (nextIndices popped.Point s1.N) with
                | none => []
                | some s2 => doTrace fuel s2))
    else []

/-- The pops and passes of a run of `Do`. -/
def runTrace (c : PrioritySearch) : List Step :=
  doTrace (doFuel c) (pushStart (clearState c))

/-- The pointers popped by the main loop, each with the state right after its `heap.Pop`. -/
def pops : List Step → List (Node × PrioritySearch)
  | [] => []
  | Step.pop _ p after :: rest => (p, after) :: pops rest
  | Step.pass _ _ _ _ :: rest => pops rest

/-- The pointers left in the queue of `s` whose entry `IsBetterThan` the entry of `p`. -/
def betterRemaining (s : PrioritySearch) (p : Node) : List Node :=
  s.queue.filter (fun n =>
    match s.entries n, s.entries p with
    | some a, some b => a.IsBetterThan b
    | _, _ => false)

/-- The binary-heap invariant of `container/heap` on the queue: at no position `i > 0` is the entry
`Less` than the entry at its parent `(i - 1) / 2`. -/
def heapOrdered (s : PrioritySearch) : Bool :=
  (List.range s.queue.length).all (fun i => !(Less s (i : Int) (((i : Int) - 1) / 2)) || i == 0)

/-- The call `heap.Fix(s.queue, entry.QueueIndex)` a pass of the inner loop makes, if it makes
one: the conditions of `expandOne` down to its branch `altCost < entry.TotalCost`, with the key of
the entry, the position handed to `heap.Fix`, the old cost and the new cost. -/
def fixCall (s : PrioritySearch) (p : Node) (nextIdx : Int) : Option (Node × Int × ℚ × ℚ) :=
  match s.entries p with
  | none => none
  | some popped =>
    let nextNode : Node := ⟨nextIdx, popped.NodesVisited + 1⟩
    if s.MaxLength ≥ 0 ∧ nextNode.NodesVisited > s.MaxLength then none
    else
      match distAt s.Dist popped.Point nextIdx with
      | none => none
      | some d =>
        let altCost := popped.TotalCost + d
        if altCost > s.MaxCost then none
        else
          match s.entries nextNode with
          | none => none
          | some entry =>
            if altCost < entry.TotalCost then
              some (nextNode, entry.QueueIndex, entry.TotalCost, altCost)
            else none

/-- The calls of `heap.Fix` in a record of a run, each with whether the pointer was in the queue
at the time of the call. -/
def fixCalls : List Step → List ((Node × Int × ℚ × ℚ) × Bool)
  | [] => []
  | Step.pop _ _ _ :: rest => fixCalls rest
  | Step.pass before p nextIdx _ :: rest =>
    match fixCall before p nextIdx with
    | none => fixCalls rest
    | some f => (f, decide (f.1 ∈ before.queue)) :: fixCalls rest

/-- The keys met when following `previous` from `e` while `NodesVisited > 0`, as `reconstructPath`
does. -/
def predecessorChain (s : PrioritySearch) : Nat → Node → List Node
  | 0, _ => []
  | fuel + 1, e =>
    if e.NodesVisited > 0 then
      e :: predecessorChain s fuel ((s.previous e).getD ⟨0, 0⟩)
    else []

/-- The point indices of the predecessor chain of `e`, from the start to `e`. -/
def chainIndices (s : PrioritySearch) (e : Node) : List Int :=
  ((predecessorChain s e.NodesVisited.toNat e).map Node.Point).reverse

/-- The state a recorded step starts from. -/
def Step.before : Step → PrioritySearch
  | Step.pop b _ _ => b
  | Step.pass b _ _ _ => b

/-- The state a recorded step ends in. -/
def Step.after : Step → PrioritySearch
  | Step.pop _ _ a => a
  | Step.pass _ _ _ a => a

/-- The state of the run of `Do` right after its step number `k` (pops and passes of the inner
loop counted together from `0`); the start state when the run has no such step. -/
def stateAt (c : PrioritySearch) (k : Nat) : PrioritySearch :=
  ((runTrace c)[k]?.map Step.after).getD (pushStart (clearState c))

/-- The `QueueIndex` fields of the entries behind the pointers `ns`, in order. -/
def queueIndices (s : PrioritySearch) (ns : List Node) : List (Option Int) :=
  ns.map (fun n => (s.entries n).map Entry.QueueIndex)

/-! ## Predicates on states, used in the proofs -/

/-- The fields of an entry other than its queue position. -/
def Entry.core (e : Entry) : Node × Int × ℚ := (e.toNode, e.NodesToVisit, e.TotalCost)

/-- State `t` differs from `s` at most in the queue and in `QueueIndex` fields. -/
structure SameCore (s t : PrioritySearch) : Prop where
  hPts : t.Pts = s.Pts
  hDist : t.Dist = s.Dist
  hMaxCost : t.MaxCost = s.MaxCost
  hMaxLength : t.MaxLength = s.MaxLength
  hprevious : t.previous = s.previous
  hentries : ∀ n, (t.entries n).map Entry.core = (s.entries n).map Entry.core

/-- A `SameCore` step that keeps the queue length and adds no pointer to the queue. -/
structure QStep (s t : PrioritySearch) : Prop where
  core : SameCore s t
  hlen : t.queue.length = s.queue.length
  hmem : ∀ n, n ∈ t.queue → n ∈ s.queue

/-- What holds of the registry, the queue and the predecessor map at every moment of a run:
every entry sits under its own key, keys other than the start key lie inside the table with a
visited count between `2` and `Point + 1`, the queue only holds registered pointers, and every
registered key other than the start key has a registered predecessor with one point fewer and a
smaller point index. -/
structure Inv (s : PrioritySearch) : Prop where
  key : ∀ n e, s.entries n = some e → e.toNode = n
  bounds : ∀ n e, s.entries n = some e →
    n = startNode ∨ (1 ≤ n.Point ∧ n.Point < s.N ∧ 2 ≤ n.NodesVisited ∧
      n.NodesVisited ≤ n.Point + 1)
  ntv : ∀ n e, s.entries n = some e → e.NodesToVisit = s.N - 1 - n.Point
  queue : ∀ n, n ∈ s.queue → s.entries n ≠ none
  prev : ∀ n e, s.entries n = some e → n ≠ startNode →
    ∃ m, s.previous n = some m ∧ s.entries m ≠ none ∧
      m.NodesVisited + 1 = n.NodesVisited ∧ m.Point < n.Point
  prevStart : s.previous startNode = none

/-- The effect of a pass of the inner loop that was not skipped: the entry under
`nn = (i, popped.NodesVisited + 1)` now has cost `popped.TotalCost + d`, its predecessor is
`popped.Node`, and the pointer was pushed if the key is new. -/
structure Relaxed (s s1 : PrioritySearch) (popped : Entry) (i : Int) (d : ℚ) : Prop where
  hPts : s1.Pts = s.Pts
  hDist : s1.Dist = s.Dist
  hMaxCost : s1.MaxCost = s.MaxCost
  hMaxLength : s1.MaxLength = s.MaxLength
  hother : ∀ x, x ≠ (⟨i, popped.NodesVisited + 1⟩ : Node) →
    (s1.entries x).map Entry.core = (s.entries x).map Entry.core
  hnew : ∃ e1, s1.entries ⟨i, popped.NodesVisited + 1⟩ = some e1 ∧
    e1.toNode = ⟨i, popped.NodesVisited + 1⟩ ∧ e1.TotalCost = popped.TotalCost + d ∧
    (e1.NodesToVisit = s.N - i - 1 ∨
      ∃ e0, s.entries ⟨i, popped.NodesVisited + 1⟩ = some e0 ∧
        e1.NodesToVisit = e0.NodesToVisit)
  hprev : s1.previous = assign s.previous ⟨i, popped.NodesVisited + 1⟩ popped.toNode
  hqueue :
    (s.entries ⟨i, popped.NodesVisited + 1⟩ = none ∧ s1.queue.length = s.queue.length + 1 ∧
      ∀ n, n ∈ s1.queue → n ∈ s.queue ∨ n = ⟨i, popped.NodesVisited + 1⟩) ∨
    ((∃ e0, s.entries ⟨i, popped.NodesVisited + 1⟩ = some e0 ∧
        popped.TotalCost + d < e0.TotalCost) ∧
      s1.queue.length = s.queue.length ∧ ∀ n, n ∈ s1.queue → n ∈ s.queue)

/-- The states a run of `Do` on the search value `c` goes through: the state after `clearState`
and `pushStart`, the state after a `heap.Pop`, and the state after a pass of the inner loop from
some pointer `p` towards an index `i` with `p.Point < i < len(Pts)`. -/
inductive Reach (c : PrioritySearch) : PrioritySearch → Prop
  | start : Reach c (pushStart (clearState c))
  | pop {s : PrioritySearch} {p : Node} {s1 : PrioritySearch} :
      Reach c s → heapPop s = some (p, s1) → Reach c s1
  | step {s : PrioritySearch} {p : Node} {i : Int} {s1 : PrioritySearch} :
      Reach c s → p.Point < i → i < c.N → expandOne s p i = some s1 → Reach c s1

/-- State `t` has the configuration of `s`. -/
structure SameConfig (s t : PrioritySearch) : Prop where
  hPts : t.Pts = s.Pts
  hDist : t.Dist = s.Dist
  hMaxCost : t.MaxCost = s.MaxCost
  hMaxLength : t.MaxLength = s.MaxLength

/-- How a result of `Do` relates to the state the run stops in. -/
def Final (s : PrioritySearch) : DoResult → Prop
  | DoResult.noPath => s.queue = []
  | DoResult.found e route =>
    s.entries e.toNode = some e ∧ e.Point = s.N - 1 ∧
      (s.MaxLength < 0 ∨ e.NodesVisited = s.MaxLength) ∧
      reconstructPath s e.toNode = some route

/-- The precondition on the table: `Dist` is an `N × N` table for the `N` points. -/
def WellFormed (c : PrioritySearch) : Prop :=
  c.Dist.length = c.Pts.length ∧ ∀ row, row ∈ c.Dist → row.length = c.Pts.length

/-- The keys `(Point, NodesVisited)` with `0 ≤ Point ≤ N` and `0 ≤ NodesVisited ≤ N + 1`. -/
def keySpace (N : Nat) : Finset Node :=
  (Finset.range (N + 1) ×ˢ Finset.range (N + 2)).image
    (fun ab => (⟨(ab.1 : Int), (ab.2 : Int)⟩ : Node))

/-- The keys of the key space without an entry. -/
def unregistered (s : PrioritySearch) : Finset Node :=
  (keySpace s.Pts.length).filter (fun n => s.entries n = none)

/-- The termination measure of the main loop. -/
def measure (s : PrioritySearch) : Nat := (unregistered s).card + s.queue.length

/-- The position handles are exact: the entry behind position `i` of the queue has
`QueueIndex = i`, and an entry whose pointer is not in the queue has `QueueIndex = -1`. -/
structure Handles (s : PrioritySearch) : Prop where
  pos : ∀ (i : Nat) (n : Node), s.queue[i]? = some n →
    ∃ e, s.entries n = some e ∧ e.QueueIndex = (i : Int)
  out : ∀ n e, s.entries n = some e → n ∉ s.queue → e.QueueIndex = -1

/-- The keys with an entry: the states `(Point, NodesVisited)` the run has created an `Entry`
for. -/
def registered (s : PrioritySearch) : Finset Node :=
  (keySpace s.Pts.length).filter (fun n => s.entries n ≠ none)

/-! ## The input collaborators and routes -/

/-- `func (x Points) Less(i, j int) bool`, on the two points. -/
def Point.Less (a b : Point) : Bool :=
  if a.X = b.X then decide (a.Y < b.Y) else decide (a.X < b.X)

/-- The order `sort.Sort(pts)` leaves behind in `LoadPoints`: no point is `Less` than an earlier
one. -/
def Sorted (pts : List Point) : Prop :=
  pts.Pairwise (fun a b => Point.Less b a = false)

instance Sorted.decidable (pts : List Point) : Decidable (Sorted pts) :=
  inferInstanceAs (Decidable (pts.Pairwise (fun a b => Point.Less b a = false)))

/-- Row of `a` in the table of `CalculateDistances`, in exact arithmetic: one entry per point,
each the non-negative number whose square is the squared distance (`math.Hypot`). -/
def isDistanceRow (a : Point) (pts : List Point) (row : List ℚ) : Bool :=
  decide (row.length = pts.length) &&
    (List.zip pts row).all (fun bd =>
      decide (0 ≤ bd.2) && decide (bd.2 * bd.2 = (a.X - bd.1.X) ^ 2 + (a.Y - bd.1.Y) ^ 2))

/-- The table `CalculateDistances(pts)` in exact arithmetic. -/
def isDistanceTable (pts : List Point) (Dist : List (List ℚ)) : Bool :=
  decide (Dist.length = pts.length) &&
    (List.zip pts Dist).all (fun ar => isDistanceRow ar.1 pts ar.2)

/-- Strictly increasing indices. -/
def increasing : List Int → Bool
  | [] => true
  | [_] => true
  | i :: j :: rest => decide (i < j) && increasing (j :: rest)

/-- A route over `N` points, as a list of point indices: it starts at `0`, ends at `N - 1` and
its indices increase strictly. -/
def isRoute (N : Int) (r : List Int) : Bool :=
  decide (r.head? = some 0) && decide (r.getLast? = some (N - 1)) && increasing r

/-- The sum of the table distances between consecutive indices of a route. -/
def routeCost (Dist : List (List ℚ)) : List Int → Option ℚ
  | [] => some 0
  | [_] => some 0
  | i :: j :: rest =>
    match distAt Dist i j, routeCost Dist (j :: rest) with
    | some d, some c => some (d + c)
    | _, _ => none

/-- The sum of the table distances between consecutive points of a list of points, each point
looked up at its first position in `pts`. -/
def pointRouteCost (pts : List Point) (Dist : List (List ℚ)) (route : List Point) : Option ℚ :=
  routeCost Dist (route.map (fun p => ((pts.indexOf p : Nat) : Int)))

/-! ## Concrete inputs -/

/-- Three points: `(0,0)`, `(3,4)`, `(6,0)`. -/
def pts3 : List Point := [⟨0, 0⟩, ⟨3, 4⟩, ⟨6, 0⟩]

/-- The distances between the points of `pts3`. -/
def dist3 : List (List ℚ) := [[0, 5, 6], [5, 0, 5], [6, 5, 0]]

/-- Five points with integer distances. -/
def pts5 : List Point := [⟨0, 12⟩, ⟨4, 12⟩, ⟨9, 0⟩, ⟨9, 12⟩, ⟨14, 12⟩]

/-- The distances between the points of `pts5`. -/
def dist5 : List (List ℚ) :=
  [[0, 4, 15, 9, 14], [4, 0, 13, 5, 10], [15, 13, 0, 12, 13], [9, 5, 12, 0, 5],
   [14, 10, 13, 5, 0]]

/-- Six points with integer distances: five on the circle of radius `325` and its centre. -/
def pts6 : List Point :=
  [⟨-125, 300⟩, ⟨0, 0⟩, ⟨125, -300⟩, ⟨253, -204⟩, ⟨323, -36⟩, ⟨323, 36⟩]

/-- The distances between the points of `pts6`. -/
def dist6 : List (List ℚ) :=
  [[0, 325, 650, 630, 560, 520], [325, 0, 325, 325, 325, 325], [650, 325, 0, 160, 330, 390],
   [630, 325, 160, 0, 182, 250], [560, 325, 330, 182, 0, 72], [520, 325, 390, 250, 72, 0]]

/-- Seven points with integer distances: six on the circle of radius `325` and its centre. -/
def pts7 : List Point :=
  [⟨-253, 204⟩, ⟨-125, 300⟩, ⟨0, 0⟩, ⟨125, 300⟩, ⟨253, -204⟩, ⟨253, 204⟩, ⟨323, 36⟩]

/-- The distances between the points of `pts7`. -/
def dist7 : List (List ℚ) :=
  [[0, 160, 325, 390, 650, 506, 600], [160, 0, 325, 250, 630, 390, 520],
   [325, 325, 0, 325, 325, 325, 325], [390, 250, 325, 0, 520, 160, 330],
   [650, 630, 325, 520, 0, 408, 250], [506, 390, 325, 160, 408, 0, 182],
   [600, 520, 325, 330, 250, 182, 0]]

/-- Five points with integer distances, on the circle of radius `65`. -/
def ptsA : List Point := [⟨-56, 33⟩, ⟨-16, -63⟩, ⟨16, -63⟩, ⟨56, -33⟩, ⟨56, 33⟩]

/-- The distances between the points of `ptsA`. -/
def distA : List (List ℚ) :=
  [[0, 104, 120, 130, 112], [104, 0, 32, 78, 120], [120, 32, 0, 50, 104],
   [130, 78, 50, 0, 66], [112, 120, 104, 66, 0]]

/-- Five points with integer distances: four on the circle of radius `325` and its centre. -/
def ptsB : List Point := [⟨0, 0⟩, ⟨36, -323⟩, ⟨204, -253⟩, ⟨300, -125⟩, ⟨300, 125⟩]

/-- The distances between the points of `ptsB`. -/
def distB : List (List ℚ) :=
  [[0, 325, 325, 325, 325], [325, 0, 182, 330, 520], [325, 182, 0, 160, 390],
   [325, 330, 160, 0, 250], [325, 520, 390, 250, 0]]

/-- Six points with integer distances: five on the circle of radius `325` and its centre. -/
def ptsC : List Point :=
  [⟨0, 0⟩, ⟨125, -300⟩, ⟨125, 300⟩, ⟨253, -204⟩, ⟨323, -36⟩, ⟨323, 36⟩]

/-- The distances between the points of `ptsC`. -/
def distC : List (List ℚ) :=
  [[0, 325, 325, 325, 325, 325], [325, 0, 600, 160, 330, 390], [325, 600, 0, 520, 390, 330],
   [325, 160, 520, 0, 182, 250], [325, 330, 390, 182, 0, 72], [325, 390, 330, 250, 72, 0]]

/-- Six points with integer distances, on the circle of radius `65`. -/
def ptsD : List Point := [⟨-33, -56⟩, ⟨-33, 56⟩, ⟨33, -56⟩, ⟨33, 56⟩, ⟨63, -16⟩, ⟨63, 16⟩]

/-- The distances between the points of `ptsD`. -/
def distD : List (List ℚ) :=
  [[0, 112, 66, 130, 104, 120], [112, 0, 130, 66, 120, 104], [66, 130, 0, 112, 50, 78],
   [130, 66, 112, 0, 78, 50], [104, 120, 50, 78, 0, 32], [120, 104, 78, 50, 32, 0]]

/-- The search over `ptsD` with the budget `152` for routes of exactly `3` points. -/
def searchD : PrioritySearch := mkSearch ptsD distD 152 3

/-- The entry of state `(3, 2)` in the run on `pts6` with budget `700`. -/
def entry32 : Entry := ⟨⟨3, 2⟩, 2, 630, 2⟩

/-- The entry of state `(2, 2)` in the run on `pts6` with budget `700`. -/
def entry22 : Entry := ⟨⟨2, 2⟩, 3, 650, 0⟩

/-- The entry of state `(2, 2)` in the run on `pts5` with budget `16`. -/
def far22 : Entry := ⟨⟨2, 2⟩, 2, 15, 0⟩

/-- The entry of the goal state `(4, 2)` in the run on `pts5` with budget `16`. -/
def goal42 : Entry := ⟨⟨4, 2⟩, 0, 14, -1⟩

/-- The search value over no points at all. -/
def emptySearch : PrioritySearch := mkSearch [] [] 0 (-1)

/-- A search value over `pts3` whose run state holds leftovers. -/
def dirty3 : PrioritySearch :=
  { Pts := pts3, Dist := dist3, MaxCost := 10, MaxLength := -1,
    queue := [⟨7, 7⟩, ⟨1, 2⟩],
    entries := fun n => some ⟨n, 0, 1, 4⟩,
    previous := fun n => some n }

/-! ## Frame properties of the queue operations

The heap routines move pointers inside the queue and rewrite `QueueIndex` fields; they touch
nothing else.  `QStep s t` records that. -/

theorem SameCore.coreRefl (s : PrioritySearch) : SameCore s s :=
  ⟨rfl, rfl, rfl, rfl, rfl, fun _ => rfl⟩

theorem SameCore.coreTrans {s t u : PrioritySearch} (h1 : SameCore s t) (h2 : SameCore t u) :
    SameCore s u :=
  ⟨h2.hPts.trans h1.hPts, h2.hDist.trans h1.hDist, h2.hMaxCost.trans h1.hMaxCost,
    h2.hMaxLength.trans h1.hMaxLength, h2.hprevious.trans h1.hprevious,
    fun n => (h2.hentries n).trans (h1.hentries n)⟩

theorem SameCore.coreN {s t : PrioritySearch} (h : SameCore s t) : t.N = s.N := by
  unfold PrioritySearch.N
  rw [h.hPts]

/-- Across a `SameCore` step every entry of `t` is an entry of `s` up to `QueueIndex`. -/
theorem SameCore.entry_of {s t : PrioritySearch} (h : SameCore s t) {n : Node} {e : Entry}
    (he : t.entries n = some e) :
    ∃ e0, s.entries n = some e0 ∧ e0.toNode = e.toNode ∧ e0.NodesToVisit = e.NodesToVisit ∧
      e0.TotalCost = e.TotalCost := by
  have h1 := h.hentries n
  rw [he] at h1
  cases hs : s.entries n with
  | none => rw [hs] at h1; simp at h1
  | some e0 =>
    rw [hs] at h1
    simp only [Option.map_some', Option.some.injEq, Entry.core, Prod.mk.injEq] at h1
    exact ⟨e0, rfl, h1.1.symm, h1.2.1.symm, h1.2.2.symm⟩

/-- Across a `SameCore` step every entry of `s` is still an entry of `t` up to `QueueIndex`. -/
theorem SameCore.entry_to {s t : PrioritySearch} (h : SameCore s t) {n : Node} {e : Entry}
    (he : s.entries n = some e) :
    ∃ e1, t.entries n = some e1 ∧ e1.toNode = e.toNode ∧ e1.NodesToVisit = e.NodesToVisit ∧
      e1.TotalCost = e.TotalCost := by
  have h1 := h.hentries n
  rw [he] at h1
  cases ht : t.entries n with
  | none => rw [ht] at h1; simp at h1
  | some e1 =>
    rw [ht] at h1
    simp only [Option.map_some', Option.some.injEq, Entry.core, Prod.mk.injEq] at h1
    exact ⟨e1, rfl, h1.1, h1.2.1, h1.2.2⟩

theorem SameCore.none_iff {s t : PrioritySearch} (h : SameCore s t) (n : Node) :
    t.entries n = none ↔ s.entries n = none := by
  have h1 := h.hentries n
  cases hs : s.entries n <;> cases ht : t.entries n <;> rw [hs, ht] at h1 <;> simp at h1 ⊢

theorem QStep.stepRefl (s : PrioritySearch) : QStep s s :=
  ⟨SameCore.coreRefl s, rfl, fun _ h => h⟩

theorem QStep.stepTrans {s t u : PrioritySearch} (h1 : QStep s t) (h2 : QStep t u) : QStep s u :=
  ⟨h1.core.coreTrans h2.core, h2.hlen.trans h1.hlen, fun n h => h1.hmem n (h2.hmem n h)⟩

theorem setQueueIndex_core (m : Node → Option Entry) (k : Node) (i : Int) (n : Node) :
    (setQueueIndex m k i n).map Entry.core = (m n).map Entry.core := by
  unfold setQueueIndex
  split
  · cases m n <;> rfl
  · rfl

theorem index_mem {α : Type} {xs : List α} {i : Int} {a : α} (h : index xs i = some a) :
    a ∈ xs := by
  unfold index at h
  split at h
  · cases h
  · exact List.getElem?_mem h

theorem Swap_qstep (s : PrioritySearch) (i j : Int) : QStep s (Swap s i j) := by
  unfold Swap
  split
  · next a b ha hb =>
    refine ⟨⟨rfl, rfl, rfl, rfl, rfl, fun n => ?_⟩, by simp, fun n hn => ?_⟩
    · simp only [setQueueIndex_core]
    · rcases List.mem_or_eq_of_mem_set hn with h1 | h1
      · rcases List.mem_or_eq_of_mem_set h1 with h2 | h2
        · exact h2
        · exact h2 ▸ index_mem hb
      · exact h1 ▸ index_mem ha
  · exact QStep.stepRefl s

theorem up_qstep (fuel : Nat) : ∀ (s : PrioritySearch) (j : Int), QStep s (up fuel s j) := by
  induction fuel with
  | zero => intro s j; exact QStep.stepRefl s
  | succ k ih =>
    intro s j
    unfold up
    simp only
    split
    · exact QStep.stepRefl s
    · exact (Swap_qstep s _ j).stepTrans (ih _ _)

theorem down_qstep (fuel : Nat) :
    ∀ (s : PrioritySearch) (i0 i n : Int), QStep s (down fuel s i0 i n).1 := by
  induction fuel with
  | zero => intro s i0 i n; exact QStep.stepRefl s
  | succ k ih =>
    intro s i0 i n
    unfold down
    simp only
    split
    · exact QStep.stepRefl s
    · split <;> split <;>
        first
        | exact QStep.stepRefl s
        | exact (Swap_qstep s i _).stepTrans (ih _ _ _ _)

theorem heapFix_qstep (s : PrioritySearch) (i : Int) : QStep s (heapFix s i) := by
  unfold heapFix
  simp only
  split
  · exact (down_qstep _ s i i _).stepTrans (up_qstep _ _ _)
  · exact down_qstep _ s i i _

theorem Push_sameCore (s : PrioritySearch) (e : Node) : SameCore s (Push s e) :=
  ⟨rfl, rfl, rfl, rfl, rfl, fun n => setQueueIndex_core _ _ _ n⟩

theorem heapPush_sameCore (s : PrioritySearch) (e : Node) : SameCore s (heapPush s e) :=
  (Push_sameCore s e).coreTrans (up_qstep _ _ _).core

theorem heapPush_length (s : PrioritySearch) (e : Node) :
    (heapPush s e).queue.length = s.queue.length + 1 := by
  unfold heapPush
  simp only
  rw [(up_qstep _ _ _).hlen]
  simp [Push]

theorem heapPush_mem (s : PrioritySearch) (e n : Node) (h : n ∈ (heapPush s e).queue) :
    n ∈ s.queue ∨ n = e := by
  unfold heapPush at h
  have h1 := (up_qstep _ _ _).hmem n h
  simpa [Push] using h1

theorem heapPop_spec {s : PrioritySearch} {p : Node} {s1 : PrioritySearch}
    (h : heapPop s = some (p, s1)) :
    SameCore s s1 ∧ s1.queue.length + 1 = s.queue.length ∧ p ∈ s.queue ∧
      (∀ n, n ∈ s1.queue → n ∈ s.queue) := by
  unfold heapPop at h
  simp only at h
  have hq : QStep s (down (heapFuel (Swap s 0 (Len s - 1))) (Swap s 0 (Len s - 1)) 0 0
      (Len s - 1)).1 := (Swap_qstep s 0 _).stepTrans (down_qstep _ _ _ _ _)
  generalize (down (heapFuel (Swap s 0 (Len s - 1))) (Swap s 0 (Len s - 1)) 0 0
      (Len s - 1)).1 = t at h hq
  unfold Pop at h
  split at h
  · cases h
  · next e he =>
    simp only [Option.some.injEq, Prod.mk.injEq] at h
    obtain ⟨h1, h2⟩ := h
    subst h1 h2
    have hmem := index_mem he
    have hpos : 0 < t.queue.length := List.length_pos_of_mem hmem
    refine ⟨hq.core.coreTrans ⟨rfl, rfl, rfl, rfl, rfl, fun n => setQueueIndex_core _ _ _ n⟩, ?_,
      hq.hmem _ hmem, fun n hn => hq.hmem n (List.mem_of_mem_dropLast hn)⟩
    simp only [List.length_dropLast]
    rw [← hq.hlen]
    omega

/-- With a non-empty queue `heap.Pop` returns a pointer. -/
theorem heapPop_isSome {s : PrioritySearch} (h : 0 < s.queue.length) :
    ∃ p s1, heapPop s = some (p, s1) := by
  unfold heapPop
  simp only
  have hq : QStep s (down (heapFuel (Swap s 0 (Len s - 1))) (Swap s 0 (Len s - 1)) 0 0
      (Len s - 1)).1 := (Swap_qstep s 0 _).stepTrans (down_qstep _ _ _ _ _)
  generalize (down (heapFuel (Swap s 0 (Len s - 1))) (Swap s 0 (Len s - 1)) 0 0
      (Len s - 1)).1 = t at hq
  have hl : 0 < t.queue.length := by rw [hq.hlen]; exact h
  unfold Pop index Len
  have h1 : ¬ ((t.queue.length : Int) - 1 < 0) := by omega
  have h2 : ((t.queue.length : Int) - 1).toNat < t.queue.length := by omega
  simp only [h1, if_false]
  rw [List.getElem?_eq_getElem h2]
  exact ⟨_, _, rfl⟩

/-! ## The run invariant -/

theorem Inv.transfer {s t : PrioritySearch} (hs : Inv s) (hc : SameCore s t)
    (hq : ∀ n, n ∈ t.queue → s.entries n ≠ none) : Inv t := by
  have hN := hc.coreN
  refine ⟨?_, ?_, ?_, ?_, ?_, ?_⟩
  · intro n e he
    obtain ⟨e0, h0, h1, _, _⟩ := hc.entry_of he
    rw [← h1]
    exact hs.key n e0 h0
  · intro n e he
    obtain ⟨e0, h0, _, _, _⟩ := hc.entry_of he
    rw [hN]
    exact hs.bounds n e0 h0
  · intro n e he
    obtain ⟨e0, h0, _, h2, _⟩ := hc.entry_of he
    rw [hN, ← h2]
    exact hs.ntv n e0 h0
  · intro n hn h
    exact hq n hn ((hc.none_iff n).1 h)
  · intro n e he hne
    obtain ⟨e0, h0, _, _, _⟩ := hc.entry_of he
    obtain ⟨m, hm1, hm2, hm3⟩ := hs.prev n e0 h0 hne
    refine ⟨m, ?_, ?_, hm3⟩
    · rw [hc.hprevious]; exact hm1
    · intro h
      exact hm2 ((hc.none_iff m).1 h)
  · rw [hc.hprevious]
    exact hs.prevStart

theorem Inv.qstep {s t : PrioritySearch} (hs : Inv s) (h : QStep s t) : Inv t :=
  hs.transfer h.core (fun n hn => hs.queue n (h.hmem n hn))

theorem Inv.heapPop {s : PrioritySearch} {p : Node} {s1 : PrioritySearch} (hs : Inv s)
    (h : heapPop s = some (p, s1)) : Inv s1 := by
  obtain ⟨hc, _, _, hmem⟩ := heapPop_spec h
  exact hs.transfer hc (fun n hn => hs.queue n (hmem n hn))

theorem assign_same {β : Type} (m : Node → Option β) (k : Node) (v : β) :
    assign m k v k = some v := by
  simp [assign]

theorem assign_other {β : Type} (m : Node → Option β) (k : Node) (v : β) (x : Node)
    (h : x ≠ k) : assign m k v x = m x := by
  simp [assign, h]

theorem assign_ne_none {β : Type} (m : Node → Option β) (k : Node) (v : β) (x : Node)
    (h : m x ≠ none) : assign m k v x ≠ none := by
  unfold assign
  split
  · simp
  · exact h

theorem setTotalCost_ne_none (m : Node → Option Entry) (k : Node) (c : ℚ) (x : Node)
    (h : m x ≠ none) : setTotalCost m k c x ≠ none := by
  unfold setTotalCost
  split
  · cases hx : m x with
    | none => exact absurd hx h
    | some e => simp
  · exact h

/-- What `setTotalCost` leaves behind under a key. -/
theorem setTotalCost_some {m : Node → Option Entry} {k : Node} {c : ℚ} {x : Node} {e : Entry}
    (h : setTotalCost m k c x = some e) :
    ∃ e0, m x = some e0 ∧ e.toNode = e0.toNode ∧ e.NodesToVisit = e0.NodesToVisit ∧
      (e.TotalCost = e0.TotalCost ∨ (x = k ∧ e.TotalCost = c)) := by
  unfold setTotalCost at h
  split at h
  · next hx =>
    cases hm : m x with
    | none => rw [hm] at h; simp at h
    | some e0 =>
      rw [hm] at h
      simp only [Option.map_some', Option.some.injEq] at h
      subst h
      exact ⟨e0, rfl, rfl, rfl, Or.inr ⟨hx, rfl⟩⟩
  · exact ⟨e, h, rfl, rfl, Or.inl rfl⟩

/-- The start state of a run satisfies the invariant. -/
theorem Inv.start (c : PrioritySearch) : Inv (pushStart (clearState c)) := by
  unfold pushStart
  simp only
  generalize hst : startEntry (clearState c) = st
  have hbase : ∀ n e, (setEntry (clearState c) st).entries n = some e →
      n = startNode ∧ e.toNode = startNode ∧ e.NodesToVisit = (clearState c).N - 1 := by
    intro n e he
    subst hst
    simp only [setEntry, assign] at he
    split at he
    · next hn =>
      simp only [Option.some.injEq] at he
      subst he
      exact ⟨hn, rfl, rfl⟩
    · simp [clearState] at he
  have hto : st.toNode = startNode := by subst hst; rfl
  rw [hto]
  have hcore := heapPush_sameCore (setEntry (clearState c) st) startNode
  have hN : (heapPush (setEntry (clearState c) st) startNode).N = (clearState c).N :=
    hcore.coreN
  refine ⟨?_, ?_, ?_, ?_, ?_, ?_⟩
  · intro n e he
    obtain ⟨e0, h0, h1, _, _⟩ := hcore.entry_of he
    obtain ⟨hn, ht, _⟩ := hbase n e0 h0
    rw [← h1, ht, hn]
  · intro n e he
    obtain ⟨e0, h0, _, _, _⟩ := hcore.entry_of he
    exact Or.inl (hbase n e0 h0).1
  · intro n e he
    obtain ⟨e0, h0, _, h2, _⟩ := hcore.entry_of he
    obtain ⟨hn, _, ht⟩ := hbase n e0 h0
    rw [← h2, ht, hn, hN]
    simp [startNode]
  · intro n hn h
    rcases heapPush_mem _ _ n hn with h1 | h1
    · simp [clearState, setEntry] at h1
    · have h2 := (hcore.none_iff n).1 h
      rw [h1] at h2
      simp [setEntry, assign, hto] at h2
  · intro n e he hne
    obtain ⟨e0, h0, _, _, _⟩ := hcore.entry_of he
    exact absurd (hbase n e0 h0).1 hne
  · rw [hcore.hprevious]
    rfl

/-! ## What one pass of the inner loop does -/

/-- Case analysis of `expandOne`: either the pass changed nothing, or it relaxed the entry of the
next key with a cost inside the budget and a visited count inside the length limit. -/
theorem expandOne_spec {s : PrioritySearch} {p : Node} {i : Int} {s1 : PrioritySearch}
    (hkey : ∀ n e, s.entries n = some e → e.toNode = n)
    (h : expandOne s p i = some s1) :
    ∃ popped, s.entries p = some popped ∧
      (s1 = s ∨ ∃ d, distAt s.Dist popped.Point i = some d ∧
        popped.TotalCost + d ≤ s.MaxCost ∧
        (s.MaxLength < 0 ∨ popped.NodesVisited + 1 ≤ s.MaxLength) ∧
        Relaxed s s1 popped i d) := by
  unfold expandOne at h
  split at h
  · cases h
  · next popped hp =>
    refine ⟨popped, hp, ?_⟩
    simp only at h
    split at h
    · left; cases h; rfl
    · next hlen =>
      split at h
      · cases h
      · next d hd =>
        split at h
        · left; cases h; rfl
        · next hcost =>
          have hlen2 : s.MaxLength < 0 ∨ popped.NodesVisited + 1 ≤ s.MaxLength := by
            by_cases h0 : s.MaxLength < 0
            · exact Or.inl h0
            · right
              by_contra h1
              exact hlen ⟨not_lt.1 h0, not_le.1 h1⟩
          split at h
          · next hnone =>
            right
            refine ⟨d, hd, not_lt.1 hcost, hlen2, ?_⟩
            simp only [Option.some.injEq] at h
            subst h
            set nn : Node := ⟨i, popped.NodesVisited + 1⟩ with hnn
            set s0 := setPrevious (setEntry s
              { toNode := nn, NodesToVisit := s.N - i - 1,
                TotalCost := popped.TotalCost + d, QueueIndex := 0 }) nn popped.toNode with hs0
            have hc := heapPush_sameCore s0 nn
            refine ⟨hc.hPts, hc.hDist, hc.hMaxCost, hc.hMaxLength, ?_, ?_, ?_, ?_⟩
            · intro x hx
              rw [hc.hentries x]
              simp [hs0, setPrevious, setEntry, assign, hx]
            · have h0 : s0.entries nn = some
                  { toNode := nn, NodesToVisit := s.N - i - 1,
                    TotalCost := popped.TotalCost + d, QueueIndex := 0 } := by
                simp [hs0, setPrevious, setEntry, assign]
              obtain ⟨e1, h1, h2, h3, h4⟩ := hc.entry_to h0
              exact ⟨e1, h1, h2, h4, Or.inl h3⟩
            · rw [hc.hprevious]
              rfl
            · left
              refine ⟨hnone, ?_, ?_⟩
              · rw [heapPush_length]
                rfl
              · intro n hn
                exact heapPush_mem s0 nn n hn
          · next entry hentry =>
            split at h
            · next hlt =>
              right
              refine ⟨d, hd, not_lt.1 hcost, hlen2, ?_⟩
              simp only [Option.some.injEq] at h
              subst h
              set nn : Node := ⟨i, popped.NodesVisited + 1⟩ with hnn
              set s0 := setPrevious (lowerCost s nn (popped.TotalCost + d)) nn
                popped.toNode with hs0
              have hq := heapFix_qstep s0 entry.QueueIndex
              have hc := hq.core
              refine ⟨hc.hPts, hc.hDist, hc.hMaxCost, hc.hMaxLength, ?_, ?_, ?_, ?_⟩
              · intro x hx
                rw [hc.hentries x]
                simp [hs0, setPrevious, lowerCost, setTotalCost, hx]
              · have h0 : s0.entries nn =
                    some { entry with TotalCost := popped.TotalCost + d } := by
                  simp [hs0, setPrevious, lowerCost, setTotalCost, hentry]
                obtain ⟨e1, h1, h2, h3, h4⟩ := hc.entry_to h0
                refine ⟨e1, h1, ?_, h4, Or.inr ⟨entry, hentry, h3⟩⟩
                rw [h2]
                exact hkey nn entry hentry
              · rw [hc.hprevious]
                rfl
              · right
                exact ⟨⟨entry, hentry, hlt⟩, hq.hlen, hq.hmem⟩
            · left; cases h; rfl

/-- Reading an entry through an equation between `Entry.core` images. -/
theorem core_some {a b : Option Entry} (h : a.map Entry.core = b.map Entry.core) {e : Entry}
    (he : a = some e) :
    ∃ e0, b = some e0 ∧ e0.toNode = e.toNode ∧ e0.NodesToVisit = e.NodesToVisit ∧
      e0.TotalCost = e.TotalCost := by
  subst he
  cases b with
  | none => simp at h
  | some e0 =>
    simp only [Option.map_some', Option.some.injEq, Entry.core, Prod.mk.injEq] at h
    exact ⟨e0, rfl, h.1.symm, h.2.1.symm, h.2.2.symm⟩

theorem core_none_iff {a b : Option Entry} (h : a.map Entry.core = b.map Entry.core) :
    a = none ↔ b = none := by
  cases a <;> cases b <;> simp at h ⊢

/-- A relaxation never removes a key from the registry. -/
theorem Relaxed.mono {s s1 : PrioritySearch} {popped : Entry} {i : Int} {d : ℚ}
    (hr : Relaxed s s1 popped i d) (x : Node) (hx : s.entries x ≠ none) :
    s1.entries x ≠ none := by
  by_cases hxn : x = ⟨i, popped.NodesVisited + 1⟩
  · obtain ⟨e1, h1, _⟩ := hr.hnew
    rw [hxn, h1]
    simp
  · intro h
    exact hx ((core_none_iff (hr.hother x hxn)).1 h)

theorem Relaxed.relaxedN {s s1 : PrioritySearch} {popped : Entry} {i : Int} {d : ℚ}
    (hr : Relaxed s s1 popped i d) : s1.N = s.N := by
  unfold PrioritySearch.N
  rw [hr.hPts]

/-- A relaxation out of a registered entry towards a larger index inside the table keeps the
invariant. -/
theorem Inv.relaxed {s s1 : PrioritySearch} {p : Node} {popped : Entry} {i : Int} {d : ℚ}
    (hs : Inv s) (hp : s.entries p = some popped) (hpi : p.Point < i) (hiN : i < s.N)
    (hr : Relaxed s s1 popped i d) : Inv s1 := by
  have hkp : popped.toNode = p := hs.key p popped hp
  have hnv : popped.NodesVisited = p.NodesVisited := by rw [← hkp]
  have hbp := hs.bounds p popped hp
  have hp0 : 0 ≤ p.Point ∧ 1 ≤ p.NodesVisited ∧ p.NodesVisited ≤ p.Point + 1 := by
    rcases hbp with h | h
    · rw [h]; simp [startNode]
    · omega
  have hN := hr.relaxedN
  have hne : (⟨i, popped.NodesVisited + 1⟩ : Node) ≠ startNode := by
    intro h
    have h1 := congrArg Node.NodesVisited h
    simp only [startNode] at h1
    omega
  obtain ⟨e1, hn1, hn2, hn3, hn4⟩ := hr.hnew
  refine ⟨?_, ?_, ?_, ?_, ?_, ?_⟩
  · intro x e he
    by_cases hx : x = ⟨i, popped.NodesVisited + 1⟩
    · rw [hx, hn1] at he
      cases he
      rw [hx]; exact hn2
    · obtain ⟨e0, h0, h1, _, _⟩ := core_some (hr.hother x hx) he
      rw [← h1]
      exact hs.key x e0 h0
  · intro x e he
    by_cases hx : x = ⟨i, popped.NodesVisited + 1⟩
    · right
      rw [hx, hN]
      simp only
      omega
    · obtain ⟨e0, h0, _, _, _⟩ := core_some (hr.hother x hx) he
      rw [hN]
      exact hs.bounds x e0 h0
  · intro x e he
    by_cases hx : x = ⟨i, popped.NodesVisited + 1⟩
    · rw [hx, hn1] at he
      cases he
      rw [hx, hN]
      rcases hn4 with h | ⟨e0, h0, h1⟩
      · rw [h]; simp only; omega
      · rw [h1]
        exact hs.ntv _ e0 h0
    · obtain ⟨e0, h0, _, h2, _⟩ := core_some (hr.hother x hx) he
      rw [hN, ← h2]
      exact hs.ntv x e0 h0
  · intro n hn
    rcases hr.hqueue with ⟨_, _, hm⟩ | ⟨_, _, hm⟩
    · rcases hm n hn with h | h
      · exact hr.mono n (hs.queue n h)
      · rw [h, hn1]; simp
    · exact hr.mono n (hs.queue n (hm n hn))
  · intro x e he hxs
    by_cases hx : x = ⟨i, popped.NodesVisited + 1⟩
    · refine ⟨p, ?_, ?_, ?_, ?_⟩
      · rw [hr.hprev, hx, assign_same, hkp]
      · apply hr.mono
        rw [hp]; simp
      · rw [hx]; simp only; omega
      · rw [hx]; exact hpi
    · obtain ⟨e0, h0, _, _, _⟩ := core_some (hr.hother x hx) he
      obtain ⟨m, hm1, hm2, hm3⟩ := hs.prev x e0 h0 hxs
      refine ⟨m, ?_, hr.mono m hm2, hm3⟩
      rw [hr.hprev, assign_other _ _ _ _ hx]
      exact hm1
  · rw [hr.hprev, assign_other _ _ _ _ (Ne.symm hne)]
    exact hs.prevStart

/-- A pass of the inner loop towards a larger index inside the table keeps the invariant. -/
theorem Inv.expandOne {s s1 : PrioritySearch} {p : Node} {i : Int} (hs : Inv s)
    (hpi : p.Point < i) (hiN : i < s.N) (h : expandOne s p i = some s1) : Inv s1 := by
  obtain ⟨popped, hp, h1 | ⟨d, _, _, _, hr⟩⟩ := expandOne_spec hs.key h
  · rw [h1]; exact hs
  · exact hs.relaxed hp hpi hiN hr

/-! ## The states of a run -/

theorem SameConfig.configN {s t : PrioritySearch} (h : SameConfig s t) : t.N = s.N := by
  unfold PrioritySearch.N
  rw [h.hPts]

theorem pushStart_config (c : PrioritySearch) : SameConfig c (pushStart (clearState c)) := by
  have h := heapPush_sameCore (setEntry (clearState c) (startEntry (clearState c)))
    (startEntry (clearState c)).toNode
  exact ⟨h.hPts, h.hDist, h.hMaxCost, h.hMaxLength⟩

/-- Every state of a run satisfies the run invariant and has the configuration the run started
with. -/
theorem Reach.inv_config {c s : PrioritySearch} (h : Reach c s) : Inv s ∧ SameConfig c s := by
  induction h with
  | start => exact ⟨Inv.start c, pushStart_config c⟩
  | pop _ hpop ih =>
    obtain ⟨hc, _⟩ := heapPop_spec hpop
    exact ⟨ih.1.heapPop hpop, hc.hPts.trans ih.2.hPts, hc.hDist.trans ih.2.hDist,
      hc.hMaxCost.trans ih.2.hMaxCost, hc.hMaxLength.trans ih.2.hMaxLength⟩
  | step _ hpi hiN hex ih =>
    have hiN2 := hiN
    rw [← ih.2.configN] at hiN2
    refine ⟨ih.1.expandOne hpi hiN2 hex, ?_⟩
    obtain ⟨popped, _, h1 | ⟨d, _, _, _, hr⟩⟩ := expandOne_spec ih.1.key hex
    · rw [h1]; exact ih.2
    · exact ⟨hr.hPts.trans ih.2.hPts, hr.hDist.trans ih.2.hDist,
        hr.hMaxCost.trans ih.2.hMaxCost, hr.hMaxLength.trans ih.2.hMaxLength⟩

theorem Reach.inv {c s : PrioritySearch} (h : Reach c s) : Inv s := h.inv_config.1

theorem Reach.config {c s : PrioritySearch} (h : Reach c s) : SameConfig c s := h.inv_config.2

theorem mem_nextIndices {a n i : Int} (h : i ∈ nextIndices a n) : a < i ∧ i < n := by
  unfold nextIndices at h
  simp only [List.mem_map, List.mem_range] at h
  obtain ⟨k, hk, hi⟩ := h
  omega

/-- The inner loop stays inside the states of the run. -/
theorem expand_reach {c : PrioritySearch} {p : Node} (l : List Int) :
    ∀ {s s1 : PrioritySearch}, Reach c s → (∀ i, i ∈ l → p.Point < i ∧ i < c.N) →
      expand s p l = some s1 → Reach c s1 := by
  induction l with
  | nil =>
    intro s s1 hs _ h
    simp only [expand, Option.some.injEq] at h
    rw [← h]; exact hs
  | cons i rest ih =>
    intro s s1 hs hl h
    unfold expand at h
    split at h
    · cases h
    · next s2 h2 =>
      have hi := hl i (List.mem_cons_self i rest)
      exact ih (Reach.step hs hi.1 hi.2 h2)
        (fun j hj => hl j (List.mem_cons_of_mem i hj)) h

/-- The main loop stays inside the states of the run, and its result is read off its last
state. -/
theorem doLoop_reach {c : PrioritySearch} (fuel : Nat) :
    ∀ {s : PrioritySearch} {r : DoResult} {s1 : PrioritySearch}, Reach c s →
      doLoop fuel s = some (r, s1) → Reach c s1 ∧ Final s1 r := by
  induction fuel with
  | zero =>
    intro s r s1 _ h
    simp [doLoop] at h
  | succ k ih =>
    intro s r s1 hs h
    unfold doLoop at h
    split at h
    · split at h
      · cases h
      · next p s2 hpop =>
        have hr2 : Reach c s2 := Reach.pop hs hpop
        split at h
        · cases h
        · next popped hpopped =>
          have hkey : popped.toNode = p := hr2.inv.key p popped hpopped
          split at h
          · next hgoal =>
            split at h
            · cases h
            · next route hroute =>
              simp only [Option.some.injEq, Prod.mk.injEq] at h
              obtain ⟨h1, h2⟩ := h
              subst h1 h2
              refine ⟨hr2, ?_, hgoal.1, hgoal.2, hroute⟩
              rw [hkey]; exact hpopped
          · split at h
            · cases h
            · next s3 hexp =>
              refine ih (expand_reach _ hr2 ?_ hexp) h
              intro i hi
              have := mem_nextIndices hi
              rw [hr2.config.configN] at this
              rw [← hkey]
              exact this
    · next hlen =>
      simp only [Option.some.injEq, Prod.mk.injEq] at h
      obtain ⟨h1, h2⟩ := h
      subst h1 h2
      refine ⟨hs, ?_⟩
      show s.queue = []
      unfold Len at hlen
      cases hq : s.queue with
      | nil => rfl
      | cons a l => rw [hq] at hlen; simp at hlen

/-- The result of `Do` and the state it stops in. -/
theorem Do_reach {c : PrioritySearch} {r : DoResult} {s1 : PrioritySearch}
    (h : Do c = some (r, s1)) : Reach c s1 ∧ Final s1 r :=
  doLoop_reach _ Reach.start h

/-! ## The run does not panic -/

theorem index_isSome {α : Type} (xs : List α) (i : Int) (h0 : 0 ≤ i) (h1 : i < xs.length) :
    ∃ a, index xs i = some a ∧ a ∈ xs := by
  unfold index
  have h2 : ¬ i < 0 := by omega
  have h3 : i.toNat < xs.length := by omega
  simp only [h2, if_false]
  exact ⟨xs[i.toNat], List.getElem?_eq_getElem h3, List.getElem_mem h3⟩

theorem distAt_isSome {c : PrioritySearch} (hw : WellFormed c) (i j : Int) (hi0 : 0 ≤ i)
    (hi : i < c.N) (hj0 : 0 ≤ j) (hj : j < c.N) : ∃ d, distAt c.Dist i j = some d := by
  unfold PrioritySearch.N at hi hj
  obtain ⟨row, hrow, hmem⟩ := index_isSome c.Dist i hi0 (by rw [hw.1]; exact hi)
  obtain ⟨d, hd, _⟩ := index_isSome row j hj0 (by rw [hw.2 row hmem]; exact hj)
  exact ⟨d, by simp [distAt, hrow, hd]⟩

theorem WellFormed.of_config {c s : PrioritySearch} (hw : WellFormed c) (h : SameConfig c s) :
    WellFormed s := by
  unfold WellFormed
  rw [h.hPts, h.hDist]
  exact hw

/-- A pass of the inner loop from a registered pointer towards an index inside the table
returns. -/
theorem expandOne_isSome {s : PrioritySearch} {p : Node} {i : Int} (hs : Inv s)
    (hw : WellFormed s) (hp : s.entries p ≠ none) (hpi : p.Point < i) (hiN : i < s.N) :
    ∃ s1, expandOne s p i = some s1 := by
  cases hpe : s.entries p with
  | none => exact absurd hpe hp
  | some popped =>
    have hkp : popped.toNode = p := hs.key p popped hpe
    have hpt : popped.Point = p.Point := by rw [← hkp]
    have hp0 : 0 ≤ p.Point := by
      rcases hs.bounds p popped hpe with h | h
      · rw [h]; simp [startNode]
      · omega
    obtain ⟨d, hd⟩ := distAt_isSome hw popped.Point i (by omega) (by omega) (by omega) hiN
    unfold expandOne
    simp only [hpe, hd]
    repeat' split
    all_goals exact ⟨_, rfl⟩

/-- After a pass of the inner loop every registered key is still registered. -/
theorem expandOne_mono {s s1 : PrioritySearch} {p : Node} {i : Int} (hs : Inv s)
    (h : expandOne s p i = some s1) (x : Node) (hx : s.entries x ≠ none) :
    s1.entries x ≠ none := by
  obtain ⟨popped, _, h1 | ⟨d, _, _, _, hr⟩⟩ := expandOne_spec hs.key h
  · rw [h1]; exact hx
  · exact hr.mono x hx

/-- The inner loop from a registered pointer over indices inside the table returns. -/
theorem expand_isSome {c : PrioritySearch} (hw : WellFormed c) {p : Node} (l : List Int) :
    ∀ {s : PrioritySearch}, Reach c s → s.entries p ≠ none →
      (∀ i, i ∈ l → p.Point < i ∧ i < c.N) → ∃ s1, expand s p l = some s1 := by
  induction l with
  | nil => intro s _ _ _; exact ⟨s, rfl⟩
  | cons i rest ih =>
    intro s hs hp hl
    have hi := hl i (List.mem_cons_self i rest)
    have hiN : i < s.N := by rw [hs.config.configN]; exact hi.2
    obtain ⟨s1, h1⟩ := expandOne_isSome hs.inv (hw.of_config hs.config) hp hi.1 hiN
    obtain ⟨s2, h2⟩ := ih (Reach.step hs hi.1 hi.2 h1) (expandOne_mono hs.inv h1 p hp)
      (fun j hj => hl j (List.mem_cons_of_mem i hj))
    exact ⟨s2, by simp [expand, h1, h2]⟩

/-- Under the invariant the predecessor chain of a registered key `n` has exactly
`n.NodesVisited` keys, so `reconstructPath` returns a list of that many points. -/
theorem reconstructLoop_isSome {s : PrioritySearch} (hs : Inv s) (hN : 1 ≤ s.N) (k : Nat) :
    ∀ n, s.entries n ≠ none → n.NodesVisited = (k : Int) →
      ∃ route, reconstructLoop s k n = some route ∧ route.length = k := by
  induction k with
  | zero =>
    intro n hn hk
    cases he : s.entries n with
    | none => exact absurd he hn
    | some e =>
      rcases hs.bounds n e he with h | h
      · rw [h] at hk; simp [startNode] at hk
      · omega
  | succ k ih =>
    intro n hn hk
    cases he : s.entries n with
    | none => exact absurd he hn
    | some e =>
      have hpos : n.NodesVisited > 0 := by omega
      have hb : n.NodesVisited - 1 < (s.Pts.length : Int) := by
        rcases hs.bounds n e he with h | h
        · rw [h]; simp only [startNode]; unfold PrioritySearch.N at hN; omega
        · unfold PrioritySearch.N at h; omega
      obtain ⟨pt, hpt, _⟩ := index_isSome s.Pts (n.NodesVisited - 1) (by omega) hb
      unfold reconstructLoop
      simp only [hpos, if_true, hpt]
      by_cases hst : n = startNode
      · have hk0 : k = 0 := by
          rw [hst] at hk; simp only [startNode] at hk; omega
        subst hk0
        rw [hst, hs.prevStart]
        exact ⟨[pt], by simp [reconstructLoop], rfl⟩
      · obtain ⟨m, hm1, hm2, hm3, _⟩ := hs.prev n e he hst
        obtain ⟨route, hr1, hr2⟩ := ih m hm2 (by omega)
        rw [hm1]
        exact ⟨pt :: route, by simp [hr1], by simp [hr2]⟩

theorem reconstructPath_isSome {s : PrioritySearch} (hs : Inv s) (hN : 1 ≤ s.N) (n : Node)
    (hn : s.entries n ≠ none) :
    ∃ route, reconstructPath s n = some route ∧ (route.length : Int) = n.NodesVisited := by
  have h1 : 1 ≤ n.NodesVisited := by
    cases he : s.entries n with
    | none => exact absurd he hn
    | some e =>
      rcases hs.bounds n e he with h | h
      · rw [h]; simp [startNode]
      · omega
  obtain ⟨route, hr1, hr2⟩ := reconstructLoop_isSome hs hN n.NodesVisited.toNat n hn (by omega)
  exact ⟨route, hr1, by omega⟩

/-- Under the invariant `reconstructPath` lists the first `n.NodesVisited` points of `Pts`, last
one first, whatever the point indices of the predecessor chain are. -/
theorem reconstructLoop_eq_take {s : PrioritySearch} (hs : Inv s) (hN : 1 ≤ s.N) (k : Nat) :
    ∀ n, s.entries n ≠ none → n.NodesVisited = (k : Int) →
      reconstructLoop s k n = some (s.Pts.take k).reverse := by
  induction k with
  | zero =>
    intro n hn hk
    cases he : s.entries n with
    | none => exact absurd he hn
    | some e =>
      rcases hs.bounds n e he with h | h
      · rw [h] at hk; simp [startNode] at hk
      · omega
  | succ k ih =>
    intro n hn hk
    cases he : s.entries n with
    | none => exact absurd he hn
    | some e =>
      have hpos : n.NodesVisited > 0 := by omega
      have hb : k < s.Pts.length := by
        rcases hs.bounds n e he with h | h
        · rw [h] at hk; simp only [startNode] at hk; unfold PrioritySearch.N at hN; omega
        · unfold PrioritySearch.N at h; omega
      have hidx : index s.Pts (n.NodesVisited - 1) = some (s.Pts.get ⟨k, hb⟩) := by
        unfold index
        have h1 : ¬ n.NodesVisited - 1 < 0 := by omega
        have h2 : (n.NodesVisited - 1).toNat = k := by omega
        simp only [h1, if_false, h2]
        exact List.getElem?_eq_getElem hb
      have htake : (s.Pts.take (k + 1)).reverse =
          s.Pts.get ⟨k, hb⟩ :: (s.Pts.take k).reverse := by
        rw [List.take_succ, List.getElem?_eq_getElem hb]
        simp
      unfold reconstructLoop
      simp only [hpos, if_true, hidx]
      by_cases hst : n = startNode
      · have hk0 : k = 0 := by
          rw [hst] at hk; simp only [startNode] at hk; omega
        subst hk0
        rw [hst, hs.prevStart, htake]
        simp [reconstructLoop]
      · obtain ⟨m, hm1, hm2, hm3, _⟩ := hs.prev n e he hst
        rw [hm1, htake]
        simp [ih m hm2 (by omega)]

/-- Whenever `Do` returns a route, the route is the list of the first `NodesVisited` points of
`Pts` in reverse order. -/
theorem returned_route_eq_take {c : PrioritySearch} {e : Entry} {route : List Point}
    {s1 : PrioritySearch} (h : Do c = some (DoResult.found e route, s1)) :
    route = (c.Pts.take e.NodesVisited.toNat).reverse := by
  obtain ⟨hr, hf⟩ := Do_reach h
  obtain ⟨he, hpoint, _, hroute⟩ := hf
  have hb := hr.inv.bounds e.toNode e he
  have hN : 1 ≤ s1.N := by
    rcases hb with h1 | h1
    · have h2 := congrArg Node.Point h1
      simp only [startNode] at h2
      omega
    · omega
  have hnv : e.toNode.NodesVisited = ((e.NodesVisited.toNat : Nat) : Int) := by
    rcases hb with h1 | h1
    · have h2 := congrArg Node.NodesVisited h1
      simp only [startNode] at h2
      omega
    · omega
  have h1 := reconstructLoop_eq_take hr.inv hN e.NodesVisited.toNat e.toNode
    (by rw [he]; simp) hnv
  unfold reconstructPath at hroute
  rw [h1] at hroute
  rw [← hr.config.hPts]
  exact (Option.some.inj hroute).symm

/-! ## The run terminates

The number of keys of the key space that have no entry yet, plus the length of the queue, goes
down by one with every iteration of the main loop. -/

theorem card_keySpace (N : Nat) : (keySpace N).card ≤ (N + 1) * (N + 2) := by
  unfold keySpace
  refine le_trans Finset.card_image_le ?_
  simp

theorem mem_keySpace {N : Nat} {n : Node} (h1 : 0 ≤ n.Point) (h2 : n.Point ≤ N)
    (h3 : 0 ≤ n.NodesVisited) (h4 : n.NodesVisited ≤ (N : Int) + 1) : n ∈ keySpace N := by
  unfold keySpace
  simp only [Finset.mem_image, Finset.mem_product, Finset.mem_range, Prod.exists]
  refine ⟨n.Point.toNat, n.NodesVisited.toNat, ⟨by omega, by omega⟩, ?_⟩
  cases n with
  | mk a b =>
    simp only at h1 h3
    simp only [Node.mk.injEq]
    omega

/-- Under the invariant every registered key lies in the key space. -/
theorem Inv.key_mem_keySpace {s : PrioritySearch} (hs : Inv s) {n : Node} {e : Entry}
    (he : s.entries n = some e) : n ∈ keySpace s.Pts.length := by
  rcases hs.bounds n e he with h | h
  · rw [h]
    exact HW5.mem_keySpace (by simp [startNode]) (by simp [startNode])
      (by simp [startNode]) (by simp only [startNode]; omega)
  · unfold PrioritySearch.N at h
    exact HW5.mem_keySpace (by omega) (by omega) (by omega) (by omega)

theorem SameCore.unregistered_eq {s t : PrioritySearch} (h : SameCore s t) :
    unregistered t = unregistered s := by
  unfold unregistered
  rw [h.hPts]
  exact Finset.filter_congr (fun n _ => h.none_iff n)

theorem heapPop_measure {s : PrioritySearch} {p : Node} {s1 : PrioritySearch}
    (h : heapPop s = some (p, s1)) : measure s1 + 1 = measure s := by
  obtain ⟨hc, hlen, _, _⟩ := heapPop_spec h
  unfold measure
  rw [hc.unregistered_eq]
  omega

theorem Relaxed.measure_le {s s1 : PrioritySearch} {p : Node} {popped : Entry} {i : Int}
    {d : ℚ} (hs : Inv s) (hp : s.entries p = some popped) (hpi : p.Point < i)
    (hiN : i < s.N) (hr : Relaxed s s1 popped i d) : measure s1 ≤ measure s := by
  have hs1 : Inv s1 := hs.relaxed hp hpi hiN hr
  have hsub : unregistered s1 ⊆ unregistered s := by
    intro x hx
    unfold unregistered at hx ⊢
    rw [hr.hPts] at hx
    simp only [Finset.mem_filter] at hx ⊢
    refine ⟨hx.1, ?_⟩
    by_contra hne
    exact hr.mono x hne hx.2
  unfold measure
  rcases hr.hqueue with ⟨hnone, hlen, _⟩ | ⟨_, hlen, _⟩
  · obtain ⟨e1, hn1, _⟩ := hr.hnew
    have hmem : (⟨i, popped.NodesVisited + 1⟩ : Node) ∈ unregistered s := by
      unfold unregistered
      simp only [Finset.mem_filter]
      refine ⟨?_, hnone⟩
      rw [← hr.hPts]
      exact hs1.key_mem_keySpace hn1
    have hsub2 : unregistered s1 ⊆ (unregistered s).erase ⟨i, popped.NodesVisited + 1⟩ := by
      intro x hx
      rw [Finset.mem_erase]
      refine ⟨?_, hsub hx⟩
      intro hxe
      unfold unregistered at hx
      simp only [Finset.mem_filter] at hx
      rw [hxe, hn1] at hx
      simp at hx
    have h1 := Finset.card_le_card hsub2
    rw [Finset.card_erase_of_mem hmem] at h1
    have h2 : 0 < (unregistered s).card := Finset.card_pos.2 ⟨_, hmem⟩
    omega
  · have h1 := Finset.card_le_card hsub
    omega

theorem expandOne_measure_le {s s1 : PrioritySearch} {p : Node} {i : Int} (hs : Inv s)
    (hpi : p.Point < i) (hiN : i < s.N) (h : expandOne s p i = some s1) :
    measure s1 ≤ measure s := by
  obtain ⟨popped, hp, h1 | ⟨d, _, _, _, hr⟩⟩ := expandOne_spec hs.key h
  · rw [h1]
  · exact hr.measure_le hs hp hpi hiN

theorem expand_measure_le {c : PrioritySearch} {p : Node} (l : List Int) :
    ∀ {s s1 : PrioritySearch}, Reach c s → (∀ i, i ∈ l → p.Point < i ∧ i < c.N) →
      expand s p l = some s1 → measure s1 ≤ measure s := by
  induction l with
  | nil =>
    intro s s1 _ _ h
    simp only [expand, Option.some.injEq] at h
    rw [h]
  | cons i rest ih =>
    intro s s1 hs hl h
    unfold expand at h
    split at h
    · cases h
    · next s2 h2 =>
      have hi := hl i (List.mem_cons_self i rest)
      have hiN : i < s.N := by rw [hs.config.configN]; exact hi.2
      have h3 := expandOne_measure_le hs.inv hi.1 hiN h2
      have h4 := ih (Reach.step hs hi.1 hi.2 h2)
        (fun j hj => hl j (List.mem_cons_of_mem i hj)) h
      omega

/-- With a well-formed table and more fuel than the measure, the main loop returns. -/
theorem doLoop_isSome {c : PrioritySearch} (hw : WellFormed c) (fuel : Nat) :
    ∀ {s : PrioritySearch}, Reach c s → measure s < fuel →
      ∃ r s1, doLoop fuel s = some (r, s1) := by
  induction fuel with
  | zero => intro s _ h; omega
  | succ k ih =>
    intro s hs hm
    unfold doLoop
    by_cases hlen : Len s > 0
    · simp only [hlen, if_true]
      have hpos : 0 < s.queue.length := by unfold Len at hlen; omega
      obtain ⟨p, s1, hpop⟩ := heapPop_isSome hpos
      have hr1 : Reach c s1 := Reach.pop hs hpop
      have hm1 := heapPop_measure hpop
      obtain ⟨_, _, hpmem, _⟩ := heapPop_spec hpop
      have hreg : s1.entries p ≠ none := by
        intro h
        exact hs.inv.queue p hpmem (((heapPop_spec hpop).1.none_iff p).1 h)
      simp only [hpop]
      cases hpe : s1.entries p with
      | none => exact absurd hpe hreg
      | some popped =>
        have hkey : popped.toNode = p := hr1.inv.key p popped hpe
        simp only
        split
        · next hgoal =>
          have hN : 1 ≤ s1.N := by
            have h0 : 0 ≤ popped.Point := by
              rw [← hkey] at hpe
              rcases hr1.inv.bounds _ popped hpe with h | h
              · have := congrArg Node.Point h
                simp only [startNode] at this
                omega
              · omega
            omega
          obtain ⟨route, hroute, _⟩ := reconstructPath_isSome hr1.inv hN popped.toNode
            (by rw [hkey, hpe]; simp)
          rw [hroute]
          exact ⟨_, _, rfl⟩
        · have hl : ∀ i, i ∈ nextIndices popped.Point s1.N → p.Point < i ∧ i < c.N := by
            intro i hi
            have := mem_nextIndices hi
            rw [hr1.config.configN] at this
            rw [← hkey]
            exact this
          obtain ⟨s2, hexp⟩ := expand_isSome hw _ hr1 hreg hl
          have hm2 := expand_measure_le _ hr1 hl hexp
          rw [hexp]
          exact ih (expand_reach _ hr1 hl hexp) (by omega)
    · simp only [hlen, if_false]
      exact ⟨_, _, rfl⟩

theorem measure_start (c : PrioritySearch) :
    measure (pushStart (clearState c)) < doFuel c := by
  have hinv := Inv.start c
  have hcfg := pushStart_config c
  have hcore := heapPush_sameCore (setEntry (clearState c) (startEntry (clearState c)))
    (startEntry (clearState c)).toNode
  have hlen : (pushStart (clearState c)).queue.length = 1 := by
    unfold pushStart
    simp only
    rw [heapPush_length]
    rfl
  have hreg : (pushStart (clearState c)).entries startNode ≠ none := by
    intro h
    have h2 := (hcore.none_iff startNode).1 h
    simp [setEntry, assign, startEntry] at h2
  have hmemU : startNode ∈ keySpace (pushStart (clearState c)).Pts.length := by
    cases he : (pushStart (clearState c)).entries startNode with
    | none => exact absurd he hreg
    | some e => exact hinv.key_mem_keySpace he
  have hsub : unregistered (pushStart (clearState c)) ⊆
      (keySpace (pushStart (clearState c)).Pts.length).erase startNode := by
    intro x hx
    unfold unregistered at hx
    simp only [Finset.mem_filter] at hx
    rw [Finset.mem_erase]
    refine ⟨?_, hx.1⟩
    intro hxe
    rw [hxe] at hx
    exact hreg hx.2
  have h1 := Finset.card_le_card hsub
  rw [Finset.card_erase_of_mem hmemU] at h1
  have h2 := card_keySpace (pushStart (clearState c)).Pts.length
  have h3 : 0 < (keySpace (pushStart (clearState c)).Pts.length).card :=
    Finset.card_pos.2 ⟨_, hmemU⟩
  rw [hcfg.hPts] at h1 h2 h3
  unfold measure doFuel
  rw [hlen]
  omega

/-- Totality of `Do`: with an `N × N` table the run neither panics nor exhausts the iteration
budget of the model, and it stops in a state of the run from which its result is read. -/
theorem Do_total {c : PrioritySearch} (hw : WellFormed c) :
    ∃ r s1, Do c = some (r, s1) ∧ Reach c s1 ∧ Final s1 r := by
  obtain ⟨r, s1, h⟩ := doLoop_isSome hw (doFuel c) Reach.start (measure_start c)
  exact ⟨r, s1, h, Do_reach h⟩

/-! ## Costs of registered entries -/

/-- The only entry of the start state is the start entry, of cost `0`. -/
theorem start_entries {c : PrioritySearch} {n : Node} {e : Entry}
    (h : (pushStart (clearState c)).entries n = some e) : n = startNode ∧ e.TotalCost = 0 := by
  have hcore := heapPush_sameCore (setEntry (clearState c) (startEntry (clearState c)))
    (startEntry (clearState c)).toNode
  obtain ⟨e0, h0, _, _, h3⟩ := hcore.entry_of h
  simp only [setEntry, assign] at h0
  split at h0
  · next hn =>
    simp only [Option.some.injEq] at h0
    subst h0
    exact ⟨hn, h3.symm⟩
  · simp [clearState] at h0

/-- Induction over a run for a property of the pair (key, cost) of registered entries: it holds
of the start entry, and it passes from the popped entry to the entry relaxed out of it. -/
theorem Reach.cost_induction {c : PrioritySearch} (P : Node → ℚ → Prop)
    (h0 : P startNode 0)
    (hstep : ∀ (p : Node) (cost : ℚ) (i : Int) (d : ℚ), P p cost → 0 ≤ p.Point →
      p.Point < i → i < c.N → distAt c.Dist p.Point i = some d → cost + d ≤ c.MaxCost →
      (c.MaxLength < 0 ∨ p.NodesVisited + 1 ≤ c.MaxLength) →
      P ⟨i, p.NodesVisited + 1⟩ (cost + d)) :
    ∀ {s : PrioritySearch}, Reach c s → ∀ n e, s.entries n = some e → P n e.TotalCost := by
  intro s hs
  induction hs with
  | start =>
    intro n e he
    obtain ⟨h1, h2⟩ := start_entries he
    rw [h1, h2]; exact h0
  | pop _ hpop ih =>
    intro n e he
    obtain ⟨e0, h1, _, _, h4⟩ := (heapPop_spec hpop).1.entry_of he
    rw [← h4]
    exact ih n e0 h1
  | @step s p i s1 hr hpi hiN hex ih =>
    intro n e he
    obtain ⟨popped, hp, h1 | ⟨d, hd, hcost, hlen, hrel⟩⟩ := expandOne_spec hr.inv.key hex
    · rw [h1] at he; exact ih n e he
    · have hkp : popped.toNode = p := hr.inv.key p popped hp
      have hpt : popped.Point = p.Point := by rw [← hkp]
      have hnv : popped.NodesVisited = p.NodesVisited := by rw [← hkp]
      have hp0 : 0 ≤ p.Point := by
        rcases hr.inv.bounds p popped hp with h | h
        · rw [h]; simp [startNode]
        · omega
      by_cases hx : n = ⟨i, popped.NodesVisited + 1⟩
      · obtain ⟨e1, hn1, _, hn3, _⟩ := hrel.hnew
        rw [hx, hn1] at he
        cases he
        rw [hx, hn3, hnv]
        rw [hr.config.hDist, hpt] at hd
        rw [hr.config.hMaxCost] at hcost
        rw [hr.config.hMaxLength, hnv] at hlen
        exact hstep p popped.TotalCost i d (ih p popped hp) hp0 hpi hiN hd hcost hlen
      · obtain ⟨e0, h1, _, _, h4⟩ := core_some (hrel.hother n hx) he
        rw [← h4]
        exact ih n e0 h1

/-- Every entry of every state of a run with a non-negative budget costs at most the budget. -/
theorem Reach.cost_le_budget {c s : PrioritySearch} (hB : 0 ≤ c.MaxCost) (hs : Reach c s)
    (n : Node) (e : Entry) (he : s.entries n = some e) : e.TotalCost ≤ c.MaxCost :=
  Reach.cost_induction (fun _ cost => cost ≤ c.MaxCost) hB
    (fun _ _ _ _ _ _ _ _ _ h _ => h) hs n e he

/-! ## The iteration budgets of `up` and `down` are never exhausted

`up` and `down` recurse on a fuel argument.  With the fuel `heapFuel` that `heap.Push`, `heap.Pop`
and `heap.Fix` pass, the loops leave through one of their `break`s: more fuel changes nothing. -/

theorem entryAt_none_of_neg (s : PrioritySearch) (i : Int) (h : i < 0) : entryAt s i = none := by
  simp [entryAt, index, h]

theorem entryAt_none_of_ge (s : PrioritySearch) (i : Int) (h : (s.queue.length : Int) ≤ i) :
    entryAt s i = none := by
  unfold entryAt index
  have h1 : ¬ i < 0 := by omega
  have h2 : s.queue.length ≤ i.toNat := by omega
  simp [h1, List.getElem?_eq_none h2]

theorem Less_fst_range {s : PrioritySearch} {i j : Int} (h : Less s i j = true) :
    0 ≤ i ∧ i < s.queue.length := by
  by_contra hc
  have hnone : entryAt s i = none := by
    by_cases h0 : i < 0
    · exact entryAt_none_of_neg s i h0
    · exact entryAt_none_of_ge s i (by omega)
  unfold Less at h
  rw [hnone] at h
  split at h <;> simp_all

theorem Less_snd_range {s : PrioritySearch} {i j : Int} (h : Less s i j = true) :
    0 ≤ j ∧ j < s.queue.length := by
  by_contra hc
  have hnone : entryAt s j = none := by
    by_cases h0 : j < 0
    · exact entryAt_none_of_neg s j h0
    · exact entryAt_none_of_ge s j (by omega)
  unfold Less at h
  rw [hnone] at h
  split at h <;> simp_all

/-- One more unit of fuel does not change `up` once the fuel exceeds the start position. -/
theorem up_fuel_succ (fuel : Nat) :
    ∀ (s : PrioritySearch) (j : Int), j.toNat < fuel → up (fuel + 1) s j = up fuel s j := by
  induction fuel with
  | zero => intro s j h; omega
  | succ k ih =>
    intro s j hj
    conv_lhs => rw [up]
    conv_rhs => rw [up]
    split
    · rfl
    · next hc =>
      have hless : Less s j (Int.tdiv (j - 1) 2) = true := by
        by_contra h
        exact hc (Or.inr (by simpa using h))
      have hne : Int.tdiv (j - 1) 2 ≠ j := fun h => hc (Or.inl h)
      have hj0 := (Less_fst_range hless).1
      have hi0 := (Less_snd_range hless).1
      have hlt : Int.tdiv (j - 1) 2 < j := by
        have h1 : 0 ≤ j - 1 := by
          by_contra h
          have hj : j = 0 := by omega
          rw [hj] at hne
          exact hne (by decide)
        rw [Int.tdiv_eq_ediv h1 (by decide)]
        omega
      exact ih _ _ (by omega)

/-- Extra fuel does not change `up` once the fuel exceeds the start position. -/
theorem up_fuel_add (s : PrioritySearch) (j : Int) (fuel k : Nat) (h : j.toNat < fuel) :
    up (fuel + k) s j = up fuel s j := by
  induction k with
  | zero => rfl
  | succ k ih =>
    rw [← Nat.add_assoc, up_fuel_succ (fuel + k) s j (by omega), ih]

/-- One more unit of fuel does not change `down` once the fuel exceeds the distance to `n`. -/
theorem down_fuel_succ (fuel : Nat) :
    ∀ (s : PrioritySearch) (i0 i n : Int), (n - i).toNat < fuel →
      down (fuel + 1) s i0 i n = down fuel s i0 i n := by
  induction fuel with
  | zero => intro s i0 i n h; omega
  | succ k ih =>
    intro s i0 i n hi
    conv_lhs => rw [down]
    conv_rhs => rw [down]
    simp only
    split
    · rfl
    · next hc =>
      have h1 : 2 * i + 1 < n ∧ 0 ≤ 2 * i + 1 := by
        constructor
        · by_contra h; exact hc (Or.inl (by omega))
        · by_contra h; exact hc (Or.inr (by omega))
      have key : ∀ j : Int, i < j →
          (if Less s j i = false then (s, decide (i > i0))
            else down (k + 1) (Swap s i j) i0 j n) =
          (if Less s j i = false then (s, decide (i > i0))
            else down k (Swap s i j) i0 j n) := by
        intro j hj
        split
        · rfl
        · exact ih _ _ _ _ (by omega)
      split
      · exact key _ (by omega)
      · exact key _ (by omega)

/-- Extra fuel does not change `down` once the fuel exceeds the distance to `n`. -/
theorem down_fuel_add (s : PrioritySearch) (i0 i n : Int) (fuel k : Nat)
    (h : (n - i).toNat < fuel) : down (fuel + k) s i0 i n = down fuel s i0 i n := by
  induction k with
  | zero => rfl
  | succ k ih =>
    rw [← Nat.add_assoc, down_fuel_succ (fuel + k) s i0 i n (by omega), ih]

/-- In `heap.Push` the loop `up` runs to its `break` within `heapFuel`. -/
theorem heapPush_fuel (s : PrioritySearch) (e : Node) (k : Nat) :
    up (heapFuel (Push s e) + k) (Push s e) (Len (Push s e) - 1) = heapPush s e := by
  unfold heapPush
  simp only
  refine up_fuel_add _ _ _ k ?_
  unfold heapFuel Len
  omega

/-- In `heap.Pop` the loop `down` runs to its `break` within `heapFuel`. -/
theorem heapPop_fuel (s : PrioritySearch) (k : Nat) :
    Pop (down (heapFuel (Swap s 0 (Len s - 1)) + k) (Swap s 0 (Len s - 1)) 0 0 (Len s - 1)).1 =
      heapPop s := by
  unfold heapPop
  simp only
  rw [down_fuel_add]
  unfold heapFuel Len
  rw [(Swap_qstep s 0 _).hlen]
  omega

theorem up_of_ge (fuel : Nat) (s : PrioritySearch) (j : Int)
    (h : (s.queue.length : Int) ≤ j) : up (fuel + 1) s j = s := by
  rw [up]
  have hl : Less s j (Int.tdiv (j - 1) 2) = false := by
    unfold Less
    rw [entryAt_none_of_ge s j h]
  rw [if_pos (Or.inr hl)]

theorem down_of_neg (fuel : Nat) (s : PrioritySearch) (i0 i n : Int) (h : i < 0) :
    down (fuel + 1) s i0 i n = (s, decide (i > i0)) := by
  rw [down]
  simp only
  rw [if_pos (Or.inr (by omega))]

/-- In `heap.Fix` the loops `down` and `up` run to their `break` within `heapFuel`. -/
theorem heapFix_fuel (s : PrioritySearch) (i : Int) (k : Nat) :
    (if (down (heapFuel s + k) s i i (Len s)).2 = false then
        up (heapFuel (down (heapFuel s + k) s i i (Len s)).1 + k)
          (down (heapFuel s + k) s i i (Len s)).1 i
      else (down (heapFuel s + k) s i i (Len s)).1) = heapFix s i := by
  have hd : down (heapFuel s + k) s i i (Len s) = down (heapFuel s) s i i (Len s) := by
    by_cases hi : 0 ≤ i
    · exact down_fuel_add s i i (Len s) (heapFuel s) k (by unfold heapFuel Len; omega)
    · have h1 : heapFuel s + k = (s.queue.length + k) + 1 := by unfold heapFuel; omega
      rw [h1, down_of_neg _ _ _ _ _ (by omega)]
      unfold heapFuel
      rw [down_of_neg _ _ _ _ _ (by omega)]
  rw [hd]
  unfold heapFix
  simp only
  have hlen := (down_qstep (heapFuel s) s i i (Len s)).hlen
  generalize down (heapFuel s) s i i (Len s) = r at hlen ⊢
  split
  · by_cases hi : i.toNat < heapFuel r.1
    · exact up_fuel_add _ _ _ k hi
    · have hge : (r.1.queue.length : Int) ≤ i := by
        unfold heapFuel at hi
        omega
      have h1 : heapFuel r.1 + k = (r.1.queue.length + k) + 1 := by
        unfold heapFuel
        omega
      rw [h1, up_of_ge _ _ _ hge]
      unfold heapFuel
      rw [up_of_ge _ _ _ hge]
  · rfl

/-! ## Reading the result of `Do` -/

theorem DoOutput_some {c : PrioritySearch} {r : DoResult} (h : DoOutput c = some r) :
    ∃ s1, Do c = some (r, s1) := by
  unfold DoOutput at h
  cases hd : Do c with
  | none => rw [hd] at h; simp at h
  | some x =>
    rw [hd] at h
    simp only [Option.map_some', Option.some.injEq] at h
    exact ⟨x.2, by rw [← h]⟩

/-! ## Properties of the specification -/

/-- C1, maximum coverage, evaluated on five sorted points with their distance table, the budget
`16` and no length limit: `Do` returns the entry of state `(4, 2)`, visited count `2` and cost
`14`, although the route through the points `0, 1, 3, 4` has four points and costs `14`, inside
the budget. -/
theorem maxCoverage_fails_five_points :
    Sorted pts5 ∧ isDistanceTable pts5 dist5 = true ∧
    DoOutput (mkSearch pts5 dist5 16 (-1)) =
      some (DoResult.found ⟨⟨4, 2⟩, 0, 14, -1⟩ [⟨4, 12⟩, ⟨0, 12⟩]) ∧
    isRoute 5 [0, 1, 3, 4] = true ∧ routeCost dist5 [0, 1, 3, 4] = some 14 := by
  decide!

/-- C2, lowest cost among equal coverage, evaluated on six sorted points with their distance
table, the budget `700` and no length limit: `Do` returns visited count `3` with cost `650`,
although the three-point route through the points `0, 4, 5` costs `632`. -/
theorem lowestCost_fails_six_points :
    Sorted pts6 ∧ isDistanceTable pts6 dist6 = true ∧
    DoOutput (mkSearch pts6 dist6 700 (-1)) =
      some (DoResult.found ⟨⟨5, 3⟩, 0, 650, -1⟩ [⟨125, -300⟩, ⟨0, 0⟩, ⟨-125, 300⟩]) ∧
    isRoute 6 [0, 4, 5] = true ∧ routeCost dist6 [0, 4, 5] = some 632 := by
  decide!

/-- C3, route shape, evaluated on three points with the budget `7`: `Do` returns the entry of
state `(2, 2)`, reached by the hop from point `0` to point `2`, with the list `[Pts[1], Pts[0]]`;
read from start to goal it ends with `Pts[1]`, not with the goal `Pts[2]`. -/
theorem route_does_not_end_at_goal :
    Sorted pts3 ∧ isDistanceTable pts3 dist3 = true ∧
    DoOutput (mkSearch pts3 dist3 7 (-1)) =
      some (DoResult.found ⟨⟨2, 2⟩, 0, 6, -1⟩ [⟨3, 4⟩, ⟨0, 0⟩]) ∧
    ([⟨3, 4⟩, ⟨0, 0⟩] : List Point).reverse.getLast? = index pts3 1 ∧
    index pts3 1 ≠ index pts3 2 := by
  decide!

/-- C4, route cost consistency, evaluated on three points with the budget `7`: the returned
entry has `TotalCost = 6`, the table distance of the hop from point `0` to point `2`, while the
table distances along the returned list of points sum to `5`. -/
theorem route_cost_differs_from_TotalCost :
    DoOutput (mkSearch pts3 dist3 7 (-1)) =
      some (DoResult.found ⟨⟨2, 2⟩, 0, 6, -1⟩ [⟨3, 4⟩, ⟨0, 0⟩]) ∧
    pointRouteCost pts3 dist3 [⟨3, 4⟩, ⟨0, 0⟩] = some 5 ∧
    routeCost dist3 [0, 2] = some 6 := by
  decide!

/-- C5, budget respected: with a non-negative budget every entry registered in any state of a
run has `TotalCost ≤ MaxCost`, and so has the entry `Do` returns with a route; with an `N × N`
table `Do` does return. -/
theorem budget_respected (c : PrioritySearch) (hB : 0 ≤ c.MaxCost) :
    (∀ s, Reach c s → ∀ n e, s.entries n = some e → e.TotalCost ≤ c.MaxCost) ∧
    (∀ e route s1, Do c = some (DoResult.found e route, s1) → e.TotalCost ≤ c.MaxCost) ∧
    (WellFormed c → ∃ r s1, Do c = some (r, s1)) := by
  refine ⟨fun s hs n e he => hs.cost_le_budget hB n e he, ?_, ?_⟩
  · intro e route s1 h
    obtain ⟨hr, hf⟩ := Do_reach h
    exact hr.cost_le_budget hB e.toNode e hf.1
  · intro hw
    obtain ⟨r, s1, h, _⟩ := Do_total hw
    exact ⟨r, s1, h⟩

/-- The instance of `budget_respected` on three points with the budget `7`. -/
theorem budget_respected_witness :
    (0 : ℚ) ≤ (mkSearch pts3 dist3 7 (-1)).MaxCost ∧
    ∃ e route, DoOutput (mkSearch pts3 dist3 7 (-1)) = some (DoResult.found e route) ∧
      e.TotalCost ≤ (mkSearch pts3 dist3 7 (-1)).MaxCost := by
  have h : DoOutput (mkSearch pts3 dist3 7 (-1)) =
      some (DoResult.found ⟨⟨2, 2⟩, 0, 6, -1⟩ [⟨3, 4⟩, ⟨0, 0⟩]) := by decide!
  obtain ⟨s1, hs1⟩ := DoOutput_some h
  have hB : (0 : ℚ) ≤ (mkSearch pts3 dist3 7 (-1)).MaxCost := by decide!
  exact ⟨hB, _, _, h, (budget_respected _ hB).2.1 _ _ s1 hs1⟩

/-- C6, exact length: with `MaxLength = K ≥ 0`, whenever `Do` returns a route, the returned
entry has `NodesVisited = K` and the route has exactly `K` points; with an `N × N` table `Do`
does return. -/
theorem exact_length (c : PrioritySearch) (K : Int) (hK : 0 ≤ K) (hML : c.MaxLength = K) :
    (∀ e route s1, Do c = some (DoResult.found e route, s1) →
      e.NodesVisited = K ∧ (route.length : Int) = K) ∧
    (WellFormed c → ∃ r s1, Do c = some (r, s1)) := by
  refine ⟨?_, ?_⟩
  · intro e route s1 h
    obtain ⟨hr, hf⟩ := Do_reach h
    obtain ⟨he, hpoint, hlen, hroute⟩ := hf
    have hnv : e.NodesVisited = K := by
      rw [hr.config.hMaxLength, hML] at hlen
      rcases hlen with h1 | h1
      · omega
      · exact h1
    have hN : 1 ≤ s1.N := by
      rcases hr.inv.bounds e.toNode e he with h1 | h1
      · have h2 := congrArg Node.Point h1
        simp only [startNode] at h2
        omega
      · omega
    obtain ⟨route1, h1, h2⟩ := reconstructPath_isSome hr.inv hN e.toNode (by rw [he]; simp)
    rw [hroute] at h1
    cases h1
    exact ⟨hnv, by rw [h2, hnv]⟩
  · intro hw
    obtain ⟨r, s1, h, _⟩ := Do_total hw
    exact ⟨r, s1, h⟩

/-- The instance of `exact_length` on three points with the budget `10` and `MaxLength = 3`. -/
theorem exact_length_witness :
    (0 : Int) ≤ 3 ∧ (mkSearch pts3 dist3 10 3).MaxLength = 3 ∧
    ∃ e route, DoOutput (mkSearch pts3 dist3 10 3) = some (DoResult.found e route) ∧
      e.NodesVisited = 3 ∧ (route.length : Int) = 3 := by
  have h : DoOutput (mkSearch pts3 dist3 10 3) =
      some (DoResult.found ⟨⟨2, 3⟩, 0, 10, -1⟩ [⟨6, 0⟩, ⟨3, 4⟩, ⟨0, 0⟩]) := by decide!
  obtain ⟨s1, hs1⟩ := DoOutput_some h
  exact ⟨by decide, rfl, _, _, h,
    (exact_length (mkSearch pts3 dist3 10 3) 3 (by decide) rfl).1 _ _ s1 hs1⟩

/-- The budget has to be non-negative in the no-route case: `pushStart` registers the start entry
without a budget test, so for the single point `(0,0)` with its table `[[0]]` and the budget `-1`,
smaller than `Dist[0][0] = 0`, `Do` returns the start entry with the one-point route. -/
theorem negative_budget_single_point :
    isDistanceTable [⟨0, 0⟩] [[0]] = true ∧ distAt [[0]] 0 (1 - 1) = some 0 ∧ (-1 : ℚ) < 0 ∧
    DoOutput (mkSearch [⟨0, 0⟩] [[0]] (-1) (-1)) =
      some (DoResult.found ⟨⟨0, 1⟩, 0, 0, -1⟩ [⟨0, 0⟩]) := by
  decide!

/-- For at least two points, an `N × N` table with `Dist[0][j] ≤ Dist[0][i] + Dist[i][j]` for
`0 < i < j < N`, and a budget of any sign smaller than `Dist[0][N-1]`, `Do` returns the
infinite-cost entry with no route: every entry but the start entry costs at least
`Dist[0][Point]`, so no goal entry is registered. -/
theorem noRoute_below_direct_distance (c : PrioritySearch) (hw : WellFormed c)
    (hN : 2 ≤ c.N)
    (htri : ∀ (i j : Int) (a b d : ℚ), 0 < i → i < j → j < c.N → distAt c.Dist 0 i = some a →
      distAt c.Dist i j = some b → distAt c.Dist 0 j = some d → d ≤ a + b)
    (direct : ℚ) (hdirect : distAt c.Dist 0 (c.N - 1) = some direct)
    (hB : c.MaxCost < direct) : DoOutput c = some DoResult.noPath := by
  obtain ⟨r, s1, h, hr, hf⟩ := Do_total hw
  have hout : DoOutput c = some r := by simp [DoOutput, h]
  rw [hout]
  cases r with
  | noPath => rfl
  | found e route =>
    exfalso
    obtain ⟨he, hpoint, _, _⟩ := hf
    have hP := Reach.cost_induction (c := c)
      (fun n cost => (n = startNode ∧ cost = 0) ∨
        (1 ≤ n.Point ∧ cost ≤ c.MaxCost ∧ ∃ d0, distAt c.Dist 0 n.Point = some d0 ∧ d0 ≤ cost))
      (Or.inl ⟨rfl, rfl⟩)
      (by
        intro p cost i d hp hp0 hpi hiN hd hcost _
        right
        refine ⟨by simp only; omega, hcost, ?_⟩
        rcases hp with ⟨h1, h2⟩ | ⟨h1, _, d0, h3, h4⟩
        · rw [h1] at hd
          simp only [startNode] at hd
          exact ⟨d, hd, by rw [h2]; simp⟩
        · obtain ⟨dd, hdd⟩ := distAt_isSome hw 0 i (by omega) (by omega) (by omega) hiN
          refine ⟨dd, hdd, ?_⟩
          have := htri p.Point i d0 d dd (by omega) hpi hiN h3 hd hdd
          linarith)
      hr e.toNode e he
    rw [hr.config.configN] at hpoint
    rcases hP with ⟨h1, _⟩ | ⟨_, h2, d0, h3, h4⟩
    · have h2 := congrArg Node.Point h1
      simp only [startNode] at h2
      omega
    · have h5 : e.toNode.Point = c.N - 1 := hpoint
      rw [h5, hdirect] at h3
      cases h3
      linarith

/-- C7, the no-route case: for every point sequence with an `N × N` table that has a zero
diagonal and satisfies the triangle inequality `Dist[0][j] ≤ Dist[0][i] + Dist[i][j]` for
`0 < i < j < N`, and every non-negative budget strictly smaller than `Dist[0][N-1]`, `Do` returns
the entry with infinite `TotalCost` and the nil route. -/
theorem noRoute_case (c : PrioritySearch) (hw : WellFormed c)
    (hdiag : ∀ (i : Int) (d : ℚ), 0 ≤ i → i < c.N → distAt c.Dist i i = some d → d = 0)
    (htri : ∀ (i j : Int) (a b d : ℚ), 0 < i → i < j → j < c.N → distAt c.Dist 0 i = some a →
      distAt c.Dist i j = some b → distAt c.Dist 0 j = some d → d ≤ a + b)
    (hB0 : 0 ≤ c.MaxCost)
    (direct : ℚ) (hdirect : distAt c.Dist 0 (c.N - 1) = some direct)
    (hB : c.MaxCost < direct) : DoOutput c = some DoResult.noPath := by
  by_cases hN : 2 ≤ c.N
  · exact noRoute_below_direct_distance c hw hN htri direct hdirect hB
  · exfalso
    have hN0 : 0 ≤ c.N := Int.ofNat_nonneg _
    by_cases h1 : c.N = 1
    · rw [h1] at hdirect
      have h2 := hdiag 0 direct (le_refl 0) (by omega) hdirect
      rw [h2] at hB
      exact absurd hB (not_lt.2 hB0)
    · have h0 : c.N = 0 := by omega
      rw [h0] at hdirect
      simp [distAt, index] at hdirect

/-- The instance of `noRoute_case` on three points with their distance table and the budget `5`,
smaller than `Dist[0][2] = 6`. -/
theorem noRoute_case_witness :
    isDistanceTable pts3 dist3 = true ∧ WellFormed (mkSearch pts3 dist3 5 (-1)) ∧
    (0 : ℚ) ≤ (mkSearch pts3 dist3 5 (-1)).MaxCost ∧
    distAt dist3 0 ((mkSearch pts3 dist3 5 (-1)).N - 1) = some 6 ∧ (5 : ℚ) < 6 ∧
    DoOutput (mkSearch pts3 dist3 5 (-1)) = some DoResult.noPath := by
  have ht : isDistanceTable pts3 dist3 = true := by decide!
  have hw : WellFormed (mkSearch pts3 dist3 5 (-1)) := by
    refine ⟨rfl, ?_⟩
    intro row hrow
    simp only [mkSearch, dist3, List.mem_cons, List.mem_singleton, List.not_mem_nil,
      or_false] at hrow
    rcases hrow with h | h | h <;> rw [h] <;> rfl
  have hB0 : (0 : ℚ) ≤ (mkSearch pts3 dist3 5 (-1)).MaxCost := by
    show (0 : ℚ) ≤ 5
    norm_num
  have hd : distAt dist3 0 ((mkSearch pts3 dist3 5 (-1)).N - 1) = some 6 := by decide!
  have hB : (5 : ℚ) < 6 := by norm_num
  refine ⟨ht, hw, hB0, hd, hB, noRoute_case _ hw ?_ ?_ hB0 6 hd hB⟩
  · intro i d hi0 hi3 h
    have hi3a : i < 3 := hi3
    have e0 : distAt dist3 0 0 = some 0 := by decide!
    have e1 : distAt dist3 1 1 = some 0 := by decide!
    have e2 : distAt dist3 2 2 = some 0 := by decide!
    have hd0 : distAt dist3 i i = some d := h
    have hcases : i = 0 ∨ i = 1 ∨ i = 2 := by omega
    rcases hcases with h0 | h0 | h0 <;> subst h0
    · rw [e0] at hd0; cases hd0; rfl
    · rw [e1] at hd0; cases hd0; rfl
    · rw [e2] at hd0; cases hd0; rfl
  · intro i j a b d hi hij hj h1 h2 h3
    have hj3 : j < 3 := hj
    have hi1 : i = 1 := by omega
    have hj2 : j = 2 := by omega
    subst hi1 hj2
    have e1 : distAt dist3 0 1 = some 5 := by decide!
    have e2 : distAt dist3 1 2 = some 5 := by decide!
    have e3 : distAt dist3 0 2 = some 6 := by decide!
    have h1a : distAt dist3 0 1 = some a := h1
    have h2a : distAt dist3 1 2 = some b := h2
    have h3a : distAt dist3 0 2 = some d := h3
    rw [e1] at h1a
    rw [e2] at h2a
    rw [e3] at h3a
    cases h1a
    cases h2a
    cases h3a
    norm_num

/-- C8, full coverage, evaluated on seven sorted points with their distance table, no length
limit and the budget `1920`, the sum of the six consecutive distances: `Do` returns visited count
`2` with cost `600`, not visited count `7` with cost `1920`. -/
theorem fullCoverage_fails_seven_points :
    Sorted pts7 ∧ isDistanceTable pts7 dist7 = true ∧
    isRoute 7 [0, 1, 2, 3, 4, 5, 6] = true ∧
    routeCost dist7 [0, 1, 2, 3, 4, 5, 6] = some 1920 ∧
    DoOutput (mkSearch pts7 dist7 1920 (-1)) =
      some (DoResult.found ⟨⟨6, 2⟩, 0, 600, -1⟩ [⟨-125, 300⟩, ⟨-253, 204⟩]) := by
  decide!

/-- C9, budget monotonicity, evaluated on five sorted points with their distance table and no
length limit: under the budget `14` the run returns visited count `4`, under the larger budget
`16` it returns visited count `2`. -/
theorem budget_monotonicity_fails :
    Sorted pts5 ∧ isDistanceTable pts5 dist5 = true ∧
    DoOutput (mkSearch pts5 dist5 14 (-1)) =
      some (DoResult.found ⟨⟨4, 4⟩, 0, 14, -1⟩ [⟨9, 12⟩, ⟨9, 0⟩, ⟨4, 12⟩, ⟨0, 12⟩]) ∧
    DoOutput (mkSearch pts5 dist5 16 (-1)) =
      some (DoResult.found ⟨⟨4, 2⟩, 0, 14, -1⟩ [⟨4, 12⟩, ⟨0, 12⟩]) := by
  decide!

/-- C10, fresh state per run: two search values with the same `Pts`, `Dist`, `MaxCost` and
`MaxLength` give the same result and final state whatever their `queue`, `entries` and
`previous` hold, and running `Do` again on the state a run left behind repeats its result. -/
theorem Do_fresh_state (s t : PrioritySearch) (h : SameConfig s t) :
    Do t = Do s ∧ ∀ r s1, Do s = some (r, s1) → Do s1 = some (r, s1) := by
  have key : ∀ a b : PrioritySearch, SameConfig a b → Do b = Do a := by
    intro a b hab
    obtain ⟨h1, h2, h3, h4⟩ := hab
    cases a
    cases b
    simp only at h1 h2 h3 h4
    subst h1 h2 h3 h4
    rfl
  refine ⟨key s t h, ?_⟩
  intro r s1 hs
  rw [key s s1 (Do_reach hs).1.config]
  exact hs

/-- The instance of `Do_fresh_state` on three points: a search value whose run state holds
leftovers gives the result of the clean one. -/
theorem Do_fresh_state_witness :
    SameConfig (mkSearch pts3 dist3 10 (-1)) dirty3 ∧
    Do dirty3 = Do (mkSearch pts3 dist3 10 (-1)) ∧
    DoOutput dirty3 =
      some (DoResult.found ⟨⟨2, 3⟩, 0, 10, -1⟩ [⟨6, 0⟩, ⟨3, 4⟩, ⟨0, 0⟩]) := by
  have hc : SameConfig (mkSearch pts3 dist3 10 (-1)) dirty3 := ⟨rfl, rfl, rfl, rfl⟩
  refine ⟨hc, (Do_fresh_state _ _ hc).1, ?_⟩
  decide!

/-- C11, strict total order, evaluated on entries of two runs.  The entries of the states `(3, 2)`
and `(2, 2)` of the run on `pts6` are each better than the other, so `IsBetterThan` is neither
asymmetric nor transitive (the entry of `(3, 2)` is not better than itself); the entries of the
states `(2, 2)` and `(4, 2)` of the run on `pts5` differ in `NodesToVisit` and neither is better
than the other. -/
theorem IsBetterThan_not_a_strict_total_order :
    (Do (mkSearch pts6 dist6 700 (-1))).map (fun x => (x.2.entries ⟨3, 2⟩, x.2.entries ⟨2, 2⟩)) =
      some (some entry32, some entry22) ∧
    entry32.IsBetterThan entry22 = true ∧ entry22.IsBetterThan entry32 = true ∧
    entry32.IsBetterThan entry32 = false ∧
    (Do (mkSearch pts5 dist5 16 (-1))).map (fun x => (x.2.entries ⟨2, 2⟩, x.2.entries ⟨4, 2⟩)) =
      some (some far22, some goal42) ∧
    far22.NodesToVisit ≠ goal42.NodesToVisit ∧
    far22.IsBetterThan goal42 = false ∧ goal42.IsBetterThan far22 = false := by
  decide!

/-- C12, primary key of the ordering, evaluated on entries of two runs: `far22` has more
remaining points than `goal42` and is not better than it; `entry22` has more remaining points
than `entry32`, and `entry32` is better than `entry22` all the same. -/
theorem more_remaining_points_not_decisive :
    far22.NodesToVisit > goal42.NodesToVisit ∧ far22.IsBetterThan goal42 = false ∧
    entry22.NodesToVisit > entry32.NodesToVisit ∧ entry32.IsBetterThan entry22 = true := by
  decide!

/-- C13, pop returns the best entry, evaluated on the run on `pts5` with budget `16`.  The run
pops `(0, 1)`, `(1, 2)` and `(4, 2)`.  After the second pop the queue `[(4,2), (2,2), (3,2)]`
breaks the heap invariant, the entry of `(3, 2)` being better than its parent; at the third pop
the entries of `(3, 3)`, `(3, 2)` and `(4, 3)` are left in the queue and each is better than the
popped entry of `(4, 2)`. -/
theorem pop_not_best_five_points :
    (pops (runTrace (mkSearch pts5 dist5 16 (-1)))).map
        (fun x => (x.1, x.2.queue, heapOrdered x.2, betterRemaining x.2 x.1)) =
      [(⟨0, 1⟩, [], true, []),
       (⟨1, 2⟩, [⟨4, 2⟩, ⟨2, 2⟩, ⟨3, 2⟩], false, []),
       (⟨4, 2⟩, [⟨2, 2⟩, ⟨3, 3⟩, ⟨3, 2⟩, ⟨4, 3⟩], true, [⟨3, 3⟩, ⟨3, 2⟩, ⟨4, 3⟩])] := by
  decide!

/-- C14, no-route soundness, evaluated on five sorted points with their distance table, the
budget `740` and `MaxLength = 4`: `Do` reports no route, although the route through the points
`0, 2, 3, 4` has four points and costs `735`. -/
theorem noRoute_unsound_exact_length :
    Sorted ptsB ∧ isDistanceTable ptsB distB = true ∧
    DoOutput (mkSearch ptsB distB 740 4) = some DoResult.noPath ∧
    isRoute 5 [0, 2, 3, 4] = true ∧ ([0, 2, 3, 4] : List Int).length = 4 ∧
    routeCost distB [0, 2, 3, 4] = some 735 := by
  decide!

/-- C15, reported cost and predecessor chain, evaluated on six sorted points with their distance
table, the budget `800` and `MaxLength = 4`: `Do` returns `TotalCost = 727`, the predecessor
chain of the returned state runs through the points `0, 3, 4, 5`, a route, and the table
distances along it sum to `579`. -/
theorem chain_cost_differs_from_TotalCost :
    Sorted ptsC ∧ isDistanceTable ptsC distC = true ∧
    (Do (mkSearch ptsC distC 800 4)).map (fun x => (x.1, chainIndices x.2 ⟨5, 4⟩)) =
      some (DoResult.found ⟨⟨5, 4⟩, 0, 727, -1⟩ [⟨253, -204⟩, ⟨125, 300⟩, ⟨125, -300⟩, ⟨0, 0⟩],
        [0, 3, 4, 5]) ∧
    isRoute 6 [0, 3, 4, 5] = true ∧ routeCost distC [0, 3, 4, 5] = some 579 := by
  decide!

/-- C20, fix only on queued entries, evaluated on the run on five sorted points with their
distance table, the budget `200` and no length limit: the run pops `(3, 3)` before `(2, 2)`, and
the pass from `(2, 2)` to index `3` lowers the cost of the entry of `(3, 3)` from `182` to `170`
and calls `heap.Fix` with its `QueueIndex = -1`, the pointer being out of the queue. -/
theorem fix_on_popped_entry :
    Sorted ptsA ∧ isDistanceTable ptsA distA = true ∧
    (pops (runTrace (mkSearch ptsA distA 200 (-1)))).map Prod.fst =
      [⟨0, 1⟩, ⟨1, 2⟩, ⟨2, 3⟩, ⟨3, 4⟩, ⟨3, 3⟩, ⟨2, 2⟩, ⟨3, 2⟩, ⟨4, 3⟩] ∧
    fixCalls (runTrace (mkSearch ptsA distA 200 (-1))) =
      [((⟨3, 3⟩, -1, 182, 170), false)] := by
  decide!

/-! ## Position handles -/

theorem index_some {α : Type} {xs : List α} {i : Int} {a : α} (h : index xs i = some a) :
    0 ≤ i ∧ xs[i.toNat]? = some a := by
  unfold index at h
  split at h
  · cases h
  · exact ⟨by omega, h⟩

theorem setQueueIndex_same (m : Node → Option Entry) (k : Node) (v : Int) :
    setQueueIndex m k v k = (m k).map (fun e => { e with QueueIndex := v }) := by
  simp [setQueueIndex]

theorem setQueueIndex_other (m : Node → Option Entry) (k : Node) (v : Int) (x : Node)
    (h : x ≠ k) : setQueueIndex m k v x = m x := by
  simp [setQueueIndex, h]

/-- With exact handles a pointer sits at one position of the queue only. -/
theorem Handles.pos_inj {s : PrioritySearch} (h : Handles s) {i k : Nat} {n : Node}
    (hi : s.queue[i]? = some n) (hk : s.queue[k]? = some n) : i = k := by
  obtain ⟨e1, h1, h2⟩ := h.pos i n hi
  obtain ⟨e2, h3, h4⟩ := h.pos k n hk
  rw [h1] at h3
  cases h3
  omega

/-- `Swap` keeps the handles exact. -/
theorem Swap_handles {s : PrioritySearch} (h : Handles s) (i j : Int) :
    Handles (Swap s i j) := by
  unfold Swap
  split
  · next a b ha hb =>
    obtain ⟨hi0, hia⟩ := index_some ha
    obtain ⟨hj0, hjb⟩ := index_some hb
    have hIlt : i.toNat < s.queue.length := by
      rcases List.getElem?_eq_some.1 hia with ⟨h1, _⟩
      exact h1
    have hJlt : j.toNat < s.queue.length := by
      rcases List.getElem?_eq_some.1 hjb with ⟨h1, _⟩
      exact h1
    obtain ⟨ea, hea, _⟩ := h.pos _ a hia
    obtain ⟨eb, heb, _⟩ := h.pos _ b hjb
    have hget : ∀ k : Nat, ((s.queue.set i.toNat b).set j.toNat a)[k]? =
        if j.toNat = k then some a else if i.toNat = k then some b else s.queue[k]? := by
      intro k
      rw [List.getElem?_set, List.getElem?_set]
      simp only [List.length_set, hJlt, hIlt, if_true]
    refine ⟨?_, ?_⟩
    · intro k n hk
      simp only at hk
      rw [hget k] at hk
      by_cases hJ : j.toNat = k
      · rw [if_pos hJ] at hk
        cases hk
        simp only [setQueueIndex_same]
        by_cases hab : a = b
        · rw [hab, setQueueIndex_same, heb]
          exact ⟨_, rfl, by simp only; omega⟩
        · rw [setQueueIndex_other _ _ _ _ hab, hea]
          exact ⟨_, rfl, by simp only; omega⟩
      · rw [if_neg hJ] at hk
        by_cases hI : i.toNat = k
        · rw [if_pos hI] at hk
          cases hk
          have hba : b ≠ a := by
            intro hba
            rw [hba] at hjb
            exact hJ ((h.pos_inj hjb hia).trans hI)
          simp only
          rw [setQueueIndex_other _ _ _ _ hba, setQueueIndex_same, heb]
          exact ⟨_, rfl, by simp only; omega⟩
        · rw [if_neg hI] at hk
          have hna : n ≠ a := by
            intro hna
            rw [hna] at hk
            exact hI (h.pos_inj hia hk)
          have hnb : n ≠ b := by
            intro hnb
            rw [hnb] at hk
            exact hJ (h.pos_inj hjb hk)
          simp only
          rw [setQueueIndex_other _ _ _ _ hna, setQueueIndex_other _ _ _ _ hnb]
          exact h.pos k n hk
    · intro n e he hn
      simp only at he hn
      have hnq : n ∉ s.queue := by
        intro hmem
        obtain ⟨k, hk⟩ := List.mem_iff_getElem?.1 hmem
        apply hn
        apply List.mem_iff_getElem?.2
        by_cases hI : i.toNat = k
        · refine ⟨j.toNat, ?_⟩
          rw [hget, if_pos rfl]
          rw [← hI, hia] at hk
          exact hk
        · by_cases hJ : j.toNat = k
          · refine ⟨i.toNat, ?_⟩
            rw [hget, if_neg (by omega), if_pos rfl]
            rw [← hJ, hjb] at hk
            exact hk
          · refine ⟨k, ?_⟩
            rw [hget, if_neg hJ, if_neg hI]
            exact hk
      have hna : n ≠ a := fun h1 => hnq (h1 ▸ List.getElem?_mem hia)
      have hnb : n ≠ b := fun h1 => hnq (h1 ▸ List.getElem?_mem hjb)
      rw [setQueueIndex_other _ _ _ _ hna, setQueueIndex_other _ _ _ _ hnb] at he
      exact h.out n e he hnq
  · exact h

theorem up_handles (fuel : Nat) :
    ∀ (s : PrioritySearch) (j : Int), Handles s → Handles (up fuel s j) := by
  induction fuel with
  | zero => intro s j h; exact h
  | succ k ih =>
    intro s j h
    unfold up
    simp only
    split
    · exact h
    · exact ih _ _ (Swap_handles h _ _)

theorem down_handles (fuel : Nat) :
    ∀ (s : PrioritySearch) (i0 i n : Int), Handles s → Handles (down fuel s i0 i n).1 := by
  induction fuel with
  | zero => intro s i0 i n h; exact h
  | succ k ih =>
    intro s i0 i n h
    unfold down
    simp only
    split
    · exact h
    · split <;> split <;>
        first
        | exact h
        | exact ih _ _ _ _ (Swap_handles h _ _)

/-- `heap.Fix` keeps the handles exact, whatever position it is called with. -/
theorem heapFix_handles {s : PrioritySearch} (h : Handles s) (i : Int) :
    Handles (heapFix s i) := by
  unfold heapFix
  simp only
  split
  · exact up_handles _ _ _ (down_handles _ _ _ _ _ h)
  · exact down_handles _ _ _ _ _ h

/-- `Push` of a registered pointer that is not in the queue makes the handles exact, also when
the `QueueIndex` of that entry was arbitrary before. -/
theorem Push_handles {s : PrioritySearch} {e : Node}
    (hpos : ∀ (i : Nat) (n : Node), s.queue[i]? = some n →
      ∃ x, s.entries n = some x ∧ x.QueueIndex = (i : Int))
    (hout : ∀ n x, s.entries n = some x → n ∉ s.queue → n ≠ e → x.QueueIndex = -1)
    (hreg : s.entries e ≠ none) (hnot : e ∉ s.queue) : Handles (Push s e) := by
  refine ⟨?_, ?_⟩
  · intro k n hk
    simp only [Push] at hk ⊢
    rw [List.getElem?_append] at hk
    split at hk
    · have hne : n ≠ e := fun h1 => hnot (h1 ▸ List.getElem?_mem hk)
      rw [setQueueIndex_other _ _ _ _ hne]
      exact hpos k n hk
    · next hlt =>
      have hk0 : k - s.queue.length = 0 := by
        by_contra h0
        have h1 : ([e] : List Node).length ≤ k - s.queue.length := by
          simp only [List.length_singleton]
          omega
        rw [List.getElem?_eq_none h1] at hk
        cases hk
      rw [hk0] at hk
      simp only [List.getElem?_cons_zero, Option.some.injEq] at hk
      subst hk
      rw [setQueueIndex_same]
      cases he : s.entries e with
      | none => exact absurd he hreg
      | some x =>
        refine ⟨_, rfl, ?_⟩
        simp only [Len]
        omega
  · intro n x hx hn
    simp only [Push, List.mem_append, List.mem_singleton, not_or] at hx hn
    rw [setQueueIndex_other _ _ _ _ hn.2] at hx
    exact hout n x hx hn.1 hn.2

/-- `heap.Push` of a registered pointer that is not in the queue makes the handles exact. -/
theorem heapPush_handles {s : PrioritySearch} {e : Node}
    (hpos : ∀ (i : Nat) (n : Node), s.queue[i]? = some n →
      ∃ x, s.entries n = some x ∧ x.QueueIndex = (i : Int))
    (hout : ∀ n x, s.entries n = some x → n ∉ s.queue → n ≠ e → x.QueueIndex = -1)
    (hreg : s.entries e ≠ none) (hnot : e ∉ s.queue) : Handles (heapPush s e) := by
  unfold heapPush
  exact up_handles _ _ _ (Push_handles hpos hout hreg hnot)

/-- `Pop` keeps the handles exact and leaves `QueueIndex = -1` in the entry it returns. -/
theorem Pop_handles {t : PrioritySearch} {e : Node} {t1 : PrioritySearch} (h : Handles t)
    (hp : Pop t = some (e, t1)) :
    Handles t1 ∧ e ∉ t1.queue ∧ ∃ x, t1.entries e = some x ∧ x.QueueIndex = -1 := by
  unfold Pop at hp
  split at hp
  · cases hp
  · next e0 he0 =>
    simp only [Option.some.injEq, Prod.mk.injEq] at hp
    obtain ⟨h1, h2⟩ := hp
    subst h1 h2
    obtain ⟨hl0, hlast⟩ := index_some he0
    have hlen : (Len t - 1).toNat = t.queue.length - 1 := by
      unfold Len
      omega
    rw [hlen] at hlast
    have hpos : 0 < t.queue.length := List.length_pos_of_mem (List.getElem?_mem hlast)
    obtain ⟨x0, hx0, _⟩ := h.pos _ e0 hlast
    have hnotmem : e0 ∉ t.queue.dropLast := by
      intro hmem
      obtain ⟨k, hk⟩ := List.mem_iff_getElem?.1 hmem
      rw [List.getElem?_dropLast] at hk
      split at hk
      · next hlt =>
        have := h.pos_inj hk hlast
        omega
      · cases hk
    refine ⟨⟨?_, ?_⟩, hnotmem, ?_⟩
    · intro k n hk
      simp only at hk ⊢
      rw [List.getElem?_dropLast] at hk
      split at hk
      · next hlt =>
        have hne : n ≠ e0 := by
          intro h1
          rw [h1] at hk
          have := h.pos_inj hk hlast
          omega
        rw [setQueueIndex_other _ _ _ _ hne]
        exact h.pos k n hk
      · cases hk
    · intro n x hx hn
      simp only at hx hn
      by_cases hne : n = e0
      · rw [hne, setQueueIndex_same, hx0] at hx
        simp only [Option.map_some', Option.some.injEq] at hx
        rw [← hx]
      · rw [setQueueIndex_other _ _ _ _ hne] at hx
        apply h.out n x hx
        intro hmem
        obtain ⟨k, hk⟩ := List.mem_iff_getElem?.1 hmem
        by_cases hlt : k < t.queue.length - 1
        · apply hn
          apply List.mem_iff_getElem?.2
          refine ⟨k, ?_⟩
          rw [List.getElem?_dropLast, if_pos hlt]
          exact hk
        · have hklt : k < t.queue.length := (List.getElem?_eq_some.1 hk).1
          have hkeq : k = t.queue.length - 1 := by omega
          rw [hkeq, hlast] at hk
          exact hne (Option.some.inj hk).symm
    · simp only
      rw [setQueueIndex_same, hx0]
      exact ⟨_, rfl, rfl⟩

/-- `heap.Pop` keeps the handles exact and leaves `QueueIndex = -1` in the entry it returns. -/
theorem heapPop_handles {s : PrioritySearch} {p : Node} {s1 : PrioritySearch} (h : Handles s)
    (hp : heapPop s = some (p, s1)) :
    Handles s1 ∧ p ∉ s1.queue ∧ ∃ x, s1.entries p = some x ∧ x.QueueIndex = -1 := by
  unfold heapPop at hp
  exact Pop_handles (down_handles _ _ _ _ _ (Swap_handles h _ _)) hp

/-- The three outcomes of a pass of the inner loop: nothing changed; a new entry was registered
and pushed; the cost of an existing entry was lowered and `heap.Fix` called with its
`QueueIndex`. -/
theorem expandOne_cases {s : PrioritySearch} {p : Node} {i : Int} {s1 : PrioritySearch}
    (h : expandOne s p i = some s1) :
    ∃ popped, s.entries p = some popped ∧
      (s1 = s ∨
        (∃ d, distAt s.Dist popped.Point i = some d ∧
          s.entries ⟨i, popped.NodesVisited + 1⟩ = none ∧
          s1 = heapPush (setPrevious (setEntry s
              ⟨⟨i, popped.NodesVisited + 1⟩, s.N - i - 1, popped.TotalCost + d, 0⟩)
            ⟨i, popped.NodesVisited + 1⟩ popped.toNode) ⟨i, popped.NodesVisited + 1⟩) ∨
        (∃ d entry, distAt s.Dist popped.Point i = some d ∧
          s.entries ⟨i, popped.NodesVisited + 1⟩ = some entry ∧
          popped.TotalCost + d < entry.TotalCost ∧
          s1 = heapFix (setPrevious (lowerCost s ⟨i, popped.NodesVisited + 1⟩
              (popped.TotalCost + d)) ⟨i, popped.NodesVisited + 1⟩ popped.toNode)
            entry.QueueIndex)) := by
  unfold expandOne at h
  split at h
  · cases h
  · next popped hp =>
    refine ⟨popped, hp, ?_⟩
    simp only at h
    split at h
    · left; cases h; rfl
    · split at h
      · cases h
      · next d hd =>
        split at h
        · left; cases h; rfl
        · split at h
          · next hnone =>
            right; left
            simp only [Option.some.injEq] at h
            exact ⟨d, hd, hnone, h.symm⟩
          · next entry hentry =>
            split at h
            · next hlt =>
              right; right
              simp only [Option.some.injEq] at h
              exact ⟨d, entry, hd, hentry, hlt, h.symm⟩
            · left; cases h; rfl

theorem setTotalCost_queueIndex_of {m : Node → Option Entry} {k : Node} {c : ℚ} {x : Node}
    {e : Entry} (h : setTotalCost m k c x = some e) :
    ∃ e0, m x = some e0 ∧ e.QueueIndex = e0.QueueIndex := by
  unfold setTotalCost at h
  split at h
  · cases hm : m x with
    | none => rw [hm] at h; simp at h
    | some e0 =>
      rw [hm] at h
      simp only [Option.map_some', Option.some.injEq] at h
      subst h
      exact ⟨e0, rfl, rfl⟩
  · exact ⟨e, h, rfl⟩

theorem setTotalCost_queueIndex_to {m : Node → Option Entry} {k : Node} {c : ℚ} {x : Node}
    {e0 : Entry} (h : m x = some e0) :
    ∃ e, setTotalCost m k c x = some e ∧ e.QueueIndex = e0.QueueIndex := by
  unfold setTotalCost
  split
  · rw [h]
    exact ⟨_, rfl, rfl⟩
  · exact ⟨e0, h, rfl⟩

/-- A pass of the inner loop keeps the handles exact. -/
theorem expandOne_handles {s : PrioritySearch} {p : Node} {i : Int} {s1 : PrioritySearch}
    (hs : Inv s) (h : Handles s) (hex : expandOne s p i = some s1) : Handles s1 := by
  obtain ⟨popped, hp, h1 | ⟨d, _, hnone, h1⟩ | ⟨d, entry, _, hentry, _, h1⟩⟩ :=
    expandOne_cases hex
  · rw [h1]; exact h
  · rw [h1]
    have hnot : (⟨i, popped.NodesVisited + 1⟩ : Node) ∉ s.queue :=
      fun hmem => hs.queue _ hmem hnone
    apply heapPush_handles
    · intro k n hk
      have hne : n ≠ ⟨i, popped.NodesVisited + 1⟩ :=
        fun h2 => hnot (h2 ▸ List.getElem?_mem hk)
      simp only [setPrevious, setEntry]
      rw [assign_other _ _ _ _ hne]
      exact h.pos k n hk
    · intro n x hx hn hne
      simp only [setPrevious, setEntry] at hx hn
      rw [assign_other _ _ _ _ hne] at hx
      exact h.out n x hx hn
    · simp only [setPrevious, setEntry]
      rw [assign_same]
      simp
    · exact hnot
  · rw [h1]
    apply heapFix_handles
    refine ⟨?_, ?_⟩
    · intro k n hk
      simp only [setPrevious, lowerCost] at hk ⊢
      obtain ⟨e0, h2, h3⟩ := h.pos k n hk
      obtain ⟨e, h4, h5⟩ := setTotalCost_queueIndex_to
        (k := ⟨i, popped.NodesVisited + 1⟩) (c := popped.TotalCost + d) h2
      exact ⟨e, h4, by rw [h5, h3]⟩
    · intro n x hx hn
      simp only [setPrevious, lowerCost] at hx hn
      obtain ⟨e0, h2, h3⟩ := setTotalCost_queueIndex_of hx
      rw [h3]
      exact h.out n e0 h2 hn

/-- The start state of a run has exact handles. -/
theorem start_handles (c : PrioritySearch) : Handles (pushStart (clearState c)) := by
  unfold pushStart
  simp only
  apply heapPush_handles
  · intro k n hk
    simp [setEntry, clearState] at hk
  · intro n x hx hn hne
    have h1 : (startEntry (clearState c)).toNode = startNode := rfl
    simp only [setEntry, h1] at hx
    rw [h1] at hne
    rw [assign_other _ _ _ _ hne] at hx
    simp [clearState] at hx
  · simp only [setEntry]
    rw [assign_same]
    simp
  · simp [setEntry, clearState]

/-- Every state of a run has exact handles. -/
theorem Reach.handles {c s : PrioritySearch} (h : Reach c s) : Handles s := by
  induction h with
  | start => exact start_handles c
  | pop _ hpop ih => exact (heapPop_handles ih hpop).1
  | step hr _ _ hex ih => exact expandOne_handles hr.inv ih hex

/-! ## Counting pops -/

theorem registered_card (s : PrioritySearch) :
    (registered s).card + (unregistered s).card = (keySpace s.Pts.length).card := by
  unfold registered unregistered
  rw [Nat.add_comm]
  exact Finset.filter_card_add_filter_neg_card_eq_card (fun n => s.entries n = none)

/-- A relaxation leaves the measure as it is: a push takes one key out of the unregistered
ones. -/
theorem Relaxed.measure_eq {s s1 : PrioritySearch} {p : Node} {popped : Entry} {i : Int}
    {d : ℚ} (hs : Inv s) (hp : s.entries p = some popped) (hpi : p.Point < i)
    (hiN : i < s.N) (hr : Relaxed s s1 popped i d) : measure s1 = measure s := by
  have hle := hr.measure_le hs hp hpi hiN
  have hs1 : Inv s1 := hs.relaxed hp hpi hiN hr
  obtain ⟨e1, hn1, _⟩ := hr.hnew
  have hsup : ∀ x, x ∈ unregistered s → x ≠ (⟨i, popped.NodesVisited + 1⟩ : Node) →
      x ∈ unregistered s1 := by
    intro x hx hne
    unfold unregistered at hx ⊢
    rw [hr.hPts]
    simp only [Finset.mem_filter] at hx ⊢
    exact ⟨hx.1, (core_none_iff (hr.hother x hne)).2 hx.2⟩
  unfold measure at hle ⊢
  rcases hr.hqueue with ⟨hnone, hlen, _⟩ | ⟨⟨e0, he0, _⟩, hlen, _⟩
  · have hsub : (unregistered s).erase ⟨i, popped.NodesVisited + 1⟩ ⊆ unregistered s1 := by
      intro x hx
      rw [Finset.mem_erase] at hx
      exact hsup x hx.2 hx.1
    have h1 := Finset.card_le_card hsub
    have hmem : (⟨i, popped.NodesVisited + 1⟩ : Node) ∈ unregistered s := by
      unfold unregistered
      simp only [Finset.mem_filter]
      refine ⟨?_, hnone⟩
      rw [← hr.hPts]
      exact hs1.key_mem_keySpace hn1
    rw [Finset.card_erase_of_mem hmem] at h1
    omega
  · have hsub : unregistered s ⊆ unregistered s1 := by
      intro x hx
      apply hsup x hx
      intro hxe
      unfold unregistered at hx
      simp only [Finset.mem_filter] at hx
      rw [hxe, he0] at hx
      exact absurd hx.2 (by simp)
    have h1 := Finset.card_le_card hsub
    omega

theorem expandOne_measure_eq {s s1 : PrioritySearch} {p : Node} {i : Int} (hs : Inv s)
    (hpi : p.Point < i) (hiN : i < s.N) (h : expandOne s p i = some s1) :
    measure s1 = measure s := by
  obtain ⟨popped, hp, h1 | ⟨d, _, _, _, hr⟩⟩ := expandOne_spec hs.key h
  · rw [h1]
  · exact hr.measure_eq hs hp hpi hiN

theorem expand_measure_eq {c : PrioritySearch} {p : Node} (l : List Int) :
    ∀ {s s1 : PrioritySearch}, Reach c s → (∀ i, i ∈ l → p.Point < i ∧ i < c.N) →
      expand s p l = some s1 → measure s1 = measure s := by
  induction l with
  | nil =>
    intro s s1 _ _ h
    simp only [expand, Option.some.injEq] at h
    rw [h]
  | cons i rest ih =>
    intro s s1 hs hl h
    unfold expand at h
    split at h
    · cases h
    · next s2 h2 =>
      have hi := hl i (List.mem_cons_self i rest)
      have hiN : i < s.N := by rw [hs.config.configN]; exact hi.2
      have h3 := expandOne_measure_eq hs.inv hi.1 hiN h2
      have h4 := ih (Reach.step hs hi.1 hi.2 h2)
        (fun j hj => hl j (List.mem_cons_of_mem i hj)) h
      omega

theorem pops_append (l1 l2 : List Step) : pops (l1 ++ l2) = pops l1 ++ pops l2 := by
  induction l1 with
  | nil => rfl
  | cons st rest ih =>
    cases st with
    | pop b p a => simp [pops, ih]
    | pass b p i a => simp [pops, ih]

theorem pops_expandTrace (l : List Int) :
    ∀ (s : PrioritySearch) (p : Node), pops (expandTrace s p l) = [] := by
  induction l with
  | nil => intro s p; rfl
  | cons i rest ih =>
    intro s p
    unfold expandTrace
    split
    · rfl
    · simp [pops, ih]

/-- Every iteration of the main loop takes one off the measure: when the loop returns, the number
of its pops is the measure it started with less the measure it stops with. -/
theorem doLoop_pops {c : PrioritySearch} (fuel : Nat) :
    ∀ {s : PrioritySearch} {r : DoResult} {s1 : PrioritySearch}, Reach c s →
      doLoop fuel s = some (r, s1) →
      (pops (doTrace fuel s)).length + measure s1 = measure s := by
  induction fuel with
  | zero =>
    intro s r s1 _ h
    simp [doLoop] at h
  | succ k ih =>
    intro s r s1 hs h
    unfold doLoop at h
    unfold doTrace
    split at h
    · next hlen =>
      simp only [hlen, if_true]
      split at h
      · cases h
      · next p s2 hpop =>
        have hr2 : Reach c s2 := Reach.pop hs hpop
        have hm := heapPop_measure hpop
        try simp only [hpop]
        split at h
        · cases h
        · next popped hpopped =>
          have hkey : popped.toNode = p := hr2.inv.key p popped hpopped
          try simp only [hpopped]
          split at h
          · next hgoal =>
            split at h
            · cases h
            · simp only [Option.some.injEq, Prod.mk.injEq] at h
              obtain ⟨_, h2⟩ := h
              subst h2
              simp only [hgoal, and_self, if_true, pops, List.length_cons, List.length_nil]
              omega
          · next hgoal =>
            split at h
            · cases h
            · next s3 hexp =>
              have hl : ∀ i, i ∈ nextIndices popped.Point s2.N → p.Point < i ∧ i < c.N := by
                intro i hi
                have := mem_nextIndices hi
                rw [hr2.config.configN] at this
                rw [← hkey]
                exact this
              have hm2 := expand_measure_eq _ hr2 hl hexp
              have hm3 := ih (expand_reach _ hr2 hl hexp) h
              simp only [hgoal, if_false, hexp, pops, pops_append, pops_expandTrace,
                List.nil_append, List.length_cons]
              omega
    · next hlen =>
      simp only [Option.some.injEq, Prod.mk.injEq] at h
      obtain ⟨_, h2⟩ := h
      subst h2
      simp [hlen, pops]

/-- In the start state the measure is the number of keys of the key space. -/
theorem measure_start_eq (c : PrioritySearch) :
    measure (pushStart (clearState c)) = (keySpace c.Pts.length).card := by
  have hinv := Inv.start c
  have hcfg := pushStart_config c
  have hlen : (pushStart (clearState c)).queue.length = 1 := by
    unfold pushStart
    simp only
    rw [heapPush_length]
    rfl
  have hreg : ∃ e, (pushStart (clearState c)).entries startNode = some e := by
    have hcore := heapPush_sameCore (setEntry (clearState c) (startEntry (clearState c)))
      (startEntry (clearState c)).toNode
    have h0 : (setEntry (clearState c) (startEntry (clearState c))).entries startNode =
        some (startEntry (clearState c)) := by
      simp [setEntry, assign, startEntry]
    obtain ⟨e1, h1, _⟩ := hcore.entry_to h0
    exact ⟨e1, h1⟩
  obtain ⟨e, he⟩ := hreg
  have hmemU : startNode ∈ keySpace (pushStart (clearState c)).Pts.length :=
    hinv.key_mem_keySpace he
  have heq : unregistered (pushStart (clearState c)) =
      (keySpace (pushStart (clearState c)).Pts.length).erase startNode := by
    ext x
    unfold unregistered
    simp only [Finset.mem_filter, Finset.mem_erase]
    constructor
    · rintro ⟨h1, h2⟩
      refine ⟨?_, h1⟩
      intro hxe
      rw [hxe, he] at h2
      cases h2
    · rintro ⟨h1, h2⟩
      refine ⟨h2, ?_⟩
      cases hx : (pushStart (clearState c)).entries x with
      | none => rfl
      | some e2 => exact absurd (start_entries hx).1 h1
  unfold measure
  rw [heq, Finset.card_erase_of_mem hmemU, hlen, hcfg.hPts]
  have h3 : 0 < (keySpace c.Pts.length).card := by
    rw [← hcfg.hPts]
    exact Finset.card_pos.2 ⟨_, hmemU⟩
  omega

/-- When `Do` returns, the pops of the run and the pointers left in the queue together are as
many as the keys with an entry. -/
theorem Do_pops {c : PrioritySearch} {r : DoResult} {s1 : PrioritySearch}
    (h : Do c = some (r, s1)) :
    (pops (runTrace c)).length + s1.queue.length = (registered s1).card := by
  have h1 := doLoop_pops (doFuel c) Reach.start h
  have h2 := measure_start_eq c
  have h3 := registered_card s1
  rw [(Do_reach h).1.config.hPts] at h3
  unfold runTrace
  unfold measure at h1 h2
  omega

/-! ## The record of a run and the run -/

/-- The call recorded by `fixCall` is the call `expandOne` makes: the pass lowers the cost of the
entry to the new cost and hands its `QueueIndex` to `heap.Fix`. -/
theorem fixCall_spec {s : PrioritySearch} {p : Node} {i : Int} {n : Node} {q : Int}
    {old new : ℚ} (h : fixCall s p i = some (n, q, old, new)) :
    ∃ popped entry, s.entries p = some popped ∧ s.entries n = some entry ∧
      entry.QueueIndex = q ∧ entry.TotalCost = old ∧ new < old ∧
      expandOne s p i = some (heapFix (setPrevious (lowerCost s n new) n popped.toNode) q) := by
  unfold fixCall at h
  split at h
  · cases h
  · next popped hp =>
    simp only at h
    split at h
    · cases h
    · next hlen =>
      split at h
      · cases h
      · next d hd =>
        split at h
        · cases h
        · next hcost =>
          split at h
          · cases h
          · next entry hentry =>
            split at h
            · next hlt =>
              simp only [Option.some.injEq, Prod.mk.injEq] at h
              obtain ⟨h1, h2, h3, h4⟩ := h
              subst h1 h2 h3 h4
              refine ⟨popped, entry, hp, hentry, rfl, rfl, hlt, ?_⟩
              unfold expandOne
              simp only [hp, hd, hentry]
              rw [if_neg hlen, if_neg hcost, if_pos hlt]
            · cases h

/-- The states recorded in the passes of the inner loop are states of the run. -/
theorem expandTrace_reach {c : PrioritySearch} {p : Node} (l : List Int) :
    ∀ {s : PrioritySearch}, Reach c s → (∀ i, i ∈ l → p.Point < i ∧ i < c.N) →
      ∀ st, st ∈ expandTrace s p l →
        ∃ before i after, st = Step.pass before p i after ∧ Reach c before ∧
          expandOne before p i = some after ∧ Reach c after := by
  induction l with
  | nil => intro s _ _ st hst; simp [expandTrace] at hst
  | cons i rest ih =>
    intro s hs hl st hst
    unfold expandTrace at hst
    split at hst
    · simp at hst
    · next s1 h1 =>
      have hi := hl i (List.mem_cons_self i rest)
      have hr1 : Reach c s1 := Reach.step hs hi.1 hi.2 h1
      rcases List.mem_cons.1 hst with h2 | h2
      · exact ⟨s, i, s1, h2, hs, h1, hr1⟩
      · exact ih hr1 (fun j hj => hl j (List.mem_cons_of_mem i hj)) st h2

/-- Every step recorded by `doTrace` is a `heap.Pop` or a pass of the inner loop between two
states of the run. -/
theorem doTrace_reach {c : PrioritySearch} (fuel : Nat) :
    ∀ {s : PrioritySearch}, Reach c s → ∀ st, st ∈ doTrace fuel s →
      (∃ before p after, st = Step.pop before p after ∧ Reach c before ∧
          heapPop before = some (p, after) ∧ Reach c after) ∨
      (∃ before p i after, st = Step.pass before p i after ∧ Reach c before ∧
          expandOne before p i = some after ∧ Reach c after) := by
  induction fuel with
  | zero => intro s _ st hst; simp [doTrace] at hst
  | succ k ih =>
    intro s hs st hst
    unfold doTrace at hst
    split at hst
    · split at hst
      · simp at hst
      · next p s1 hpop =>
        have hr1 : Reach c s1 := Reach.pop hs hpop
        rcases List.mem_cons.1 hst with h1 | h1
        · exact Or.inl ⟨s, p, s1, h1, hs, hpop, hr1⟩
        · split at h1
          · simp at h1
          · next popped hpopped =>
            have hkey : popped.toNode = p := hr1.inv.key p popped hpopped
            split at h1
            · simp at h1
            · have hl : ∀ i, i ∈ nextIndices popped.Point s1.N → p.Point < i ∧ i < c.N := by
                intro i hi
                have := mem_nextIndices hi
                rw [hr1.config.configN] at this
                rw [← hkey]
                exact this
              rcases List.mem_append.1 h1 with h2 | h2
              · obtain ⟨b, i, a, h3, h4, h5, h6⟩ := expandTrace_reach _ hr1 hl st h2
                exact Or.inr ⟨b, p, i, a, h3, h4, h5, h6⟩
              · split at h2
                · simp at h2
                · next s2 hexp =>
                  exact ih (expand_reach _ hr1 hl hexp) st h2
    · simp at hst

/-- The state right after any step of the run of `Do` is a state of the run. -/
theorem stateAt_reach (c : PrioritySearch) (k : Nat) : Reach c (stateAt c k) := by
  unfold stateAt
  cases h : (runTrace c)[k]? with
  | none => exact Reach.start
  | some st =>
    simp only [Option.map_some', Option.getD_some]
    have hmem : st ∈ runTrace c := List.getElem?_mem h
    rcases doTrace_reach (doFuel c) Reach.start st hmem with
      ⟨b, p, a, h1, _, _, h2⟩ | ⟨b, p, i, a, h1, _, _, h2⟩
    · rw [h1]; exact h2
    · rw [h1]; exact h2

/-- A registered key keeps its entry through a `heap.Pop` and through a pass of the inner loop,
and a pointer enters the queue only in a pass that finds no entry under its key: an `Entry` is
created and pushed once per key. -/
theorem pushed_once {c s : PrioritySearch} (hs : Reach c s) :
    (∀ p s1, heapPop s = some (p, s1) →
      (∀ x, s.entries x ≠ none → s1.entries x ≠ none) ∧ ∀ x, x ∈ s1.queue → x ∈ s.queue) ∧
    (∀ p i s1, expandOne s p i = some s1 →
      (∀ x, s.entries x ≠ none → s1.entries x ≠ none) ∧
      ∀ x, x ∈ s1.queue → x ∈ s.queue ∨ s.entries x = none) := by
  refine ⟨?_, ?_⟩
  · intro p s1 hpop
    obtain ⟨hc, _, _, hmem⟩ := heapPop_spec hpop
    exact ⟨fun x hx h1 => hx ((hc.none_iff x).1 h1), hmem⟩
  · intro p i s1 hex
    refine ⟨expandOne_mono hs.inv hex, ?_⟩
    obtain ⟨popped, _, h1 | ⟨d, _, _, _, hr⟩⟩ := expandOne_spec hs.inv.key hex
    · rw [h1]; exact fun x hx => Or.inl hx
    · intro x hx
      rcases hr.hqueue with ⟨hnone, _, hm⟩ | ⟨_, _, hm⟩
      · rcases hm x hx with h2 | h2
        · exact Or.inl h2
        · exact Or.inr (h2 ▸ hnone)
      · exact Or.inl (hm x hx)

/-- Every predecessor recorded for a key has one point fewer and a smaller point index. -/
theorem Reach.previous_some {c s : PrioritySearch} (hs : Reach c s) :
    ∀ n m, s.previous n = some m →
      m.NodesVisited = n.NodesVisited - 1 ∧ m.Point < n.Point := by
  induction hs with
  | start =>
    intro n m h
    have hcore := heapPush_sameCore (setEntry (clearState c) (startEntry (clearState c)))
      (startEntry (clearState c)).toNode
    have h1 : (pushStart (clearState c)).previous = fun _ => none := hcore.hprevious
    rw [h1] at h
    cases h
  | pop _ hpop ih =>
    intro n m h
    rw [(heapPop_spec hpop).1.hprevious] at h
    exact ih n m h
  | @step s p i s1 hr hpi _ hex ih =>
    intro n m h
    obtain ⟨popped, hp, h1 | ⟨d, _, _, _, hrel⟩⟩ := expandOne_spec hr.inv.key hex
    · rw [h1] at h; exact ih n m h
    · have hkp : popped.toNode = p := hr.inv.key p popped hp
      rw [hrel.hprev] at h
      by_cases hx : n = ⟨i, popped.NodesVisited + 1⟩
      · rw [hx, assign_same] at h
        cases h
        rw [hx, hkp]
        have hnv : popped.NodesVisited = p.NodesVisited := by rw [← hkp]
        simp only
        exact ⟨by omega, hpi⟩
      · rw [assign_other _ _ _ _ hx] at h
        exact ih n m h

theorem wellFormed_pts3 (B : ℚ) (K : Int) : WellFormed (mkSearch pts3 dist3 B K) := by
  refine ⟨rfl, ?_⟩
  intro row hrow
  simp only [mkSearch, dist3, List.mem_cons, List.mem_singleton, List.not_mem_nil,
    or_false] at hrow
  rcases hrow with h | h | h <;> rw [h] <;> rfl

/-! ## Termination, index safety and position handles -/

/-- C16, termination: with a table of matching size `Do` returns; the pops of the main loop
and the pointers left in the queue together are as many as the keys that got an `Entry`, which
are at most `(N + 1) * (N + 2)`; and in every state of the run a key keeps its entry and a
pointer enters the queue only in a pass that finds no entry under its key, so an `Entry` is
created and pushed at most once per state. -/
theorem Do_terminates (c : PrioritySearch) (hw : WellFormed c) :
    (∃ r s1, Do c = some (r, s1) ∧
      (pops (runTrace c)).length + s1.queue.length = (registered s1).card ∧
      (registered s1).card ≤ (c.Pts.length + 1) * (c.Pts.length + 2)) ∧
    (∀ s, Reach c s →
      (∀ p s1, heapPop s = some (p, s1) →
        (∀ x, s.entries x ≠ none → s1.entries x ≠ none) ∧ ∀ x, x ∈ s1.queue → x ∈ s.queue) ∧
      (∀ p i s1, expandOne s p i = some s1 →
        (∀ x, s.entries x ≠ none → s1.entries x ≠ none) ∧
        ∀ x, x ∈ s1.queue → x ∈ s.queue ∨ s.entries x = none)) := by
  refine ⟨?_, fun s hs => pushed_once hs⟩
  obtain ⟨r, s1, h, hr, _⟩ := Do_total hw
  refine ⟨r, s1, h, Do_pops h, ?_⟩
  have h1 : (registered s1).card ≤ (keySpace s1.Pts.length).card := by
    unfold registered
    exact Finset.card_filter_le _ _
  rw [hr.config.hPts] at h1
  exact le_trans h1 (card_keySpace _)

/-- The instance of `Do_terminates` on three points with the budget `7`: the run returns after
three pops. -/
theorem Do_terminates_witness :
    WellFormed (mkSearch pts3 dist3 7 (-1)) ∧
    (pops (runTrace (mkSearch pts3 dist3 7 (-1)))).length = 3 ∧
    ∃ r s1, Do (mkSearch pts3 dist3 7 (-1)) = some (r, s1) ∧
      (pops (runTrace (mkSearch pts3 dist3 7 (-1)))).length + s1.queue.length =
        (registered s1).card := by
  have hw := wellFormed_pts3 7 (-1)
  obtain ⟨r, s1, h1, h2, _⟩ := (Do_terminates (mkSearch pts3 dist3 7 (-1)) hw).1
  exact ⟨hw, by decide!, r, s1, h1, h2⟩

/-- C17, path reconstruction terminates: for the state `Do` returns, `reconstructPath` returns
its list, of exactly `NodesVisited` points and at most `N`; every predecessor recorded for a
state `(i, k)` in a state of the run is a state `(j, k - 1)` with `j < i`; with a table of
matching size `Do` does return. -/
theorem reconstructPath_terminates (c : PrioritySearch) :
    (∀ e route s1, Do c = some (DoResult.found e route, s1) →
      reconstructPath s1 e.toNode = some route ∧ (route.length : Int) = e.NodesVisited ∧
      e.NodesVisited ≤ c.N) ∧
    (∀ s, Reach c s → ∀ n m, s.previous n = some m →
      m.NodesVisited = n.NodesVisited - 1 ∧ m.Point < n.Point) ∧
    (WellFormed c → ∃ r s1, Do c = some (r, s1)) := by
  refine ⟨?_, fun s hs => hs.previous_some, ?_⟩
  · intro e route s1 h
    obtain ⟨hr, hf⟩ := Do_reach h
    obtain ⟨he, hpoint, _, hroute⟩ := hf
    have hb := hr.inv.bounds e.toNode e he
    have hN : 1 ≤ s1.N := by
      rcases hb with h1 | h1
      · have h2 := congrArg Node.Point h1
        simp only [startNode] at h2
        omega
      · omega
    obtain ⟨route1, h1, h2⟩ := reconstructPath_isSome hr.inv hN e.toNode (by rw [he]; simp)
    rw [hroute] at h1
    cases h1
    refine ⟨hroute, h2, ?_⟩
    rw [← hr.config.configN]
    rcases hb with h1 | h1
    · have h2 := congrArg Node.NodesVisited h1
      simp only [startNode] at h2
      omega
    · omega
  · intro hw
    obtain ⟨r, s1, h, _⟩ := Do_total hw
    exact ⟨r, s1, h⟩

/-- The instance of `reconstructPath_terminates` on three points with the budget `7`. -/
theorem reconstructPath_terminates_witness :
    ∃ e route, DoOutput (mkSearch pts3 dist3 7 (-1)) = some (DoResult.found e route) ∧
      (route.length : Int) = e.NodesVisited ∧ e.NodesVisited ≤ (mkSearch pts3 dist3 7 (-1)).N := by
  have h : DoOutput (mkSearch pts3 dist3 7 (-1)) =
      some (DoResult.found ⟨⟨2, 2⟩, 0, 6, -1⟩ [⟨3, 4⟩, ⟨0, 0⟩]) := by decide!
  obtain ⟨s1, hs1⟩ := DoOutput_some h
  have h1 := (reconstructPath_terminates (mkSearch pts3 dist3 7 (-1))).1 _ _ s1 hs1
  exact ⟨_, _, h, h1.2.1, h1.2.2⟩

/-- C18 as stated fails for the empty point sequence: the table `[]` is `0 × 0`, the start state
of the run holds the start entry with `Point = 0`, and `N - 1 = -1`. -/
theorem start_entry_outside_empty_sequence :
    WellFormed emptySearch ∧ Reach emptySearch (pushStart (clearState emptySearch)) ∧
    (pushStart (clearState emptySearch)).entries ⟨0, 1⟩ = some ⟨⟨0, 1⟩, -1, 0, 0⟩ ∧
    ¬ ((0 : Int) ≤ emptySearch.N - 1) :=
  ⟨⟨rfl, by simp [emptySearch, mkSearch]⟩, Reach.start, by decide!, by decide⟩

/-- C18 amended: with an `N × N` table the run makes no access out of range (`Do` returns), and
every entry registered in a state of the run has `0 ≤ Point`, `Point ≤ N - 1` when `N ≥ 1`,
`1 ≤ NodesVisited ≤ Point + 1` and `NodesToVisit = N - 1 - Point`. -/
theorem index_safety (c : PrioritySearch) (hw : WellFormed c) :
    (∃ r s1, Do c = some (r, s1)) ∧
    ∀ s, Reach c s → ∀ n e, s.entries n = some e →
      0 ≤ e.Point ∧ (1 ≤ c.N → e.Point ≤ c.N - 1) ∧ 1 ≤ e.NodesVisited ∧
      e.NodesVisited ≤ e.Point + 1 ∧ e.NodesToVisit = c.N - 1 - e.Point := by
  refine ⟨?_, ?_⟩
  · obtain ⟨r, s1, h, _⟩ := Do_total hw
    exact ⟨r, s1, h⟩
  · intro s hs n e he
    have hkey : e.toNode = n := hs.inv.key n e he
    have hntv := hs.inv.ntv n e he
    have hb := hs.inv.bounds n e he
    rw [hs.config.configN] at hntv hb
    have hP : e.Point = n.Point := by rw [← hkey]
    have hV : e.NodesVisited = n.NodesVisited := by rw [← hkey]
    rw [hP, hV, hntv]
    rcases hb with h1 | h1
    · have hp0 : n.Point = 0 := by rw [h1]; rfl
      have hv1 : n.NodesVisited = 1 := by rw [h1]; rfl
      omega
    · omega

/-- The instance of `index_safety` on three points with the budget `7`, at the entry `Do`
returns. -/
theorem index_safety_witness :
    WellFormed (mkSearch pts3 dist3 7 (-1)) ∧
    ∃ e route, DoOutput (mkSearch pts3 dist3 7 (-1)) = some (DoResult.found e route) ∧
      0 ≤ e.Point ∧ e.Point ≤ (mkSearch pts3 dist3 7 (-1)).N - 1 ∧ 1 ≤ e.NodesVisited ∧
      e.NodesVisited ≤ e.Point + 1 ∧
      e.NodesToVisit = (mkSearch pts3 dist3 7 (-1)).N - 1 - e.Point := by
  have hw := wellFormed_pts3 7 (-1)
  have h : DoOutput (mkSearch pts3 dist3 7 (-1)) =
      some (DoResult.found ⟨⟨2, 2⟩, 0, 6, -1⟩ [⟨3, 4⟩, ⟨0, 0⟩]) := by decide!
  obtain ⟨s1, hs1⟩ := DoOutput_some h
  obtain ⟨hr, hf⟩ := Do_reach hs1
  have h1 := (index_safety (mkSearch pts3 dist3 7 (-1)) hw).2 s1 hr _ _ hf.1
  exact ⟨hw, _, _, h, h1.1, h1.2.1 (by decide), h1.2.2.1, h1.2.2.2.1, h1.2.2.2.2⟩

/-- C19, position handles are exact: in every state of a run the entry behind position `i` of
the queue has `QueueIndex = i` and every entry whose pointer is out of the queue has
`QueueIndex = -1`; `heap.Fix` at a position of the queue or at `-1`, `heap.Pop`, and `heap.Push`
of a registered pointer that is out of the queue keep it so; `heap.Pop` leaves `QueueIndex = -1`
in the entry it returns; and a registered pointer that is out of the queue does not come back in a
pass of the inner loop, so a popped entry keeps `QueueIndex = -1`. -/
theorem position_handles_exact (c s : PrioritySearch) (h : Reach c s) :
    (∀ (i : Nat) (n : Node), s.queue[i]? = some n →
      ∃ e, s.entries n = some e ∧ e.QueueIndex = (i : Int)) ∧
    (∀ n e, s.entries n = some e → n ∉ s.queue → e.QueueIndex = -1) ∧
    (∀ i : Int, -1 ≤ i → i < (s.queue.length : Int) → Handles (heapFix s i)) ∧
    (∀ p s1, heapPop s = some (p, s1) →
      Handles s1 ∧ p ∉ s1.queue ∧ ∃ x, s1.entries p = some x ∧ x.QueueIndex = -1) ∧
    (∀ e, s.entries e ≠ none → e ∉ s.queue → Handles (heapPush s e)) ∧
    (∀ p i s1 x, expandOne s p i = some s1 → s.entries x ≠ none → x ∉ s.queue →
      x ∉ s1.queue) := by
  have hh := h.handles
  refine ⟨hh.pos, hh.out, fun i _ _ => heapFix_handles hh i,
    fun p s1 hp => heapPop_handles hh hp,
    fun e he hn => heapPush_handles hh.pos (fun n x hx hnq _ => hh.out n x hx hnq) he hn, ?_⟩
  intro p i s1 x hex hx hn hmem
  rcases ((pushed_once h).2 p i s1 hex).2 x hmem with h1 | h1
  · exact hn h1
  · exact hx h1

/-- The instance of `position_handles_exact` in the middle of the run on `searchD`, six points
with their distance table. Step `18` of the run is the pass from `(4,2)` to index `5`: it lowers
the cost of the queued entry of `(5,3)` from `144` to `136` and calls `heap.Fix` at its position
`1`, which swaps it with the entry at position `0`. In the state after that step the three queued
entries have `QueueIndex` `0`, `1`, `2`, the five popped entries have `QueueIndex = -1`, and the
next `heap.Pop` returns `(5,3)` with `QueueIndex = -1`, leaving the other two at positions `0` and
`1`. -/
theorem position_handles_exact_witness :
    isDistanceTable ptsD distD = true ∧
    (pops (runTrace searchD)).map Prod.fst =
      [⟨0, 1⟩, ⟨1, 2⟩, ⟨2, 2⟩, ⟨4, 3⟩, ⟨4, 2⟩, ⟨5, 3⟩] ∧
    fixCalls (((runTrace searchD).drop 18).take 1) = [((⟨5, 3⟩, 1, 144, 136), true)] ∧
    (stateAt searchD 17).queue = [⟨5, 2⟩, ⟨5, 3⟩, ⟨3, 2⟩] ∧
    Reach searchD (stateAt searchD 18) ∧
    (stateAt searchD 18).queue = [⟨5, 3⟩, ⟨5, 2⟩, ⟨3, 2⟩] ∧
    queueIndices (stateAt searchD 18) [⟨5, 3⟩, ⟨5, 2⟩, ⟨3, 2⟩] = [some 0, some 1, some 2] ∧
    queueIndices (stateAt searchD 18) [⟨0, 1⟩, ⟨1, 2⟩, ⟨2, 2⟩, ⟨4, 3⟩, ⟨4, 2⟩] =
      [some (-1), some (-1), some (-1), some (-1), some (-1)] ∧
    Handles (heapFix (stateAt searchD 18) 1) ∧
    ∃ s1, heapPop (stateAt searchD 18) = some (⟨5, 3⟩, s1) ∧ s1.queue = [⟨3, 2⟩, ⟨5, 2⟩] ∧
      queueIndices s1 [⟨5, 3⟩] = [some (-1)] := by
  have hr : Reach searchD (stateAt searchD 18) := stateAt_reach searchD 18
  have hq : (stateAt searchD 18).queue = [⟨5, 3⟩, ⟨5, 2⟩, ⟨3, 2⟩] := by decide!
  have hreg : ∀ n, n ∈ ([⟨5, 3⟩, ⟨5, 2⟩, ⟨3, 2⟩, ⟨0, 1⟩, ⟨1, 2⟩, ⟨2, 2⟩, ⟨4, 3⟩, ⟨4, 2⟩] :
      List Node) → ((stateAt searchD 18).entries n).isSome = true := by decide!
  have hT := position_handles_exact searchD (stateAt searchD 18) hr
  obtain ⟨hpos, hout, hfix, hpop, _, _⟩ := hT
  have atPos : ∀ (i : Nat) (n : Node), (stateAt searchD 18).queue[i]? = some n →
      ((stateAt searchD 18).entries n).map Entry.QueueIndex = some (i : Int) := by
    intro i n hi
    obtain ⟨e, h1, h2⟩ := hpos i n hi
    rw [h1, Option.map_some', h2]
  have outPos : ∀ n : Node, ((stateAt searchD 18).entries n).isSome = true →
      n ∉ (stateAt searchD 18).queue →
      ((stateAt searchD 18).entries n).map Entry.QueueIndex = some (-1) := by
    intro n hn hnq
    obtain ⟨e, h1⟩ := Option.isSome_iff_exists.1 hn
    rw [h1, Option.map_some', hout n e h1 hnq]
  refine ⟨by decide!, by decide!, by decide!, by decide!, hr, hq, ?_, ?_, ?_, ?_⟩
  · simp only [queueIndices, List.map_cons, List.map_nil]
    rw [atPos 0 ⟨5, 3⟩ (by rw [hq]; rfl), atPos 1 ⟨5, 2⟩ (by rw [hq]; rfl),
      atPos 2 ⟨3, 2⟩ (by rw [hq]; rfl)]
    rfl
  · simp only [queueIndices, List.map_cons, List.map_nil]
    rw [outPos ⟨0, 1⟩ (hreg _ (by decide)) (by rw [hq]; decide),
      outPos ⟨1, 2⟩ (hreg _ (by decide)) (by rw [hq]; decide),
      outPos ⟨2, 2⟩ (hreg _ (by decide)) (by rw [hq]; decide),
      outPos ⟨4, 3⟩ (hreg _ (by decide)) (by rw [hq]; decide),
      outPos ⟨4, 2⟩ (hreg _ (by decide)) (by rw [hq]; decide)]
  · exact hfix 1 (by decide) (by rw [hq]; decide)
  · have hp : (heapPop (stateAt searchD 18)).map (fun r => (r.1, r.2.queue)) =
        some (⟨5, 3⟩, [⟨3, 2⟩, ⟨5, 2⟩]) := by decide!
    cases hpp : heapPop (stateAt searchD 18) with
    | none => rw [hpp] at hp; cases hp
    | some r =>
      obtain ⟨p, s1⟩ := r
      rw [hpp] at hp
      simp only [Option.map_some', Option.some.injEq, Prod.mk.injEq] at hp
      obtain ⟨hp1, hp2⟩ := hp
      subst hp1
      obtain ⟨_, _, x, hx1, hx2⟩ := hpop _ s1 hpp
      refine ⟨s1, rfl, hp2, ?_⟩
      simp only [queueIndices, List.map_cons, List.map_nil]
      rw [hx1, Option.map_some', hx2]

end HW5
